import Mathlib

/-!
Formal model of the agent memory engine (`app/core/agent_memory.py`):
the entry store, the knowledge-graph store with its in-memory mirror,
similarity search, graph-context resolution and the retention sweep.
Machine text is modelled over `List Char` / `String`, timestamps as
naturals (ISO-8601 text comparison is chronological), embeddings as
lists of rationals, and the fallible embedding provider as a function
returning `Option`.
-/

namespace AgentMemory

/-- One decimal digit character, as Python's `str` of an integer digit. -/
def digitChar (d : Nat) : Char := Char.ofNat (48 + d)

/-- Digit-peeling loop for the decimal representation, with explicit fuel
so that it is structural (the fuel `n` always suffices, since `n / 10`
strictly decreases below any positive `n`). -/
def natToStrGo : Nat → Nat → List Char
  | 0, n => [digitChar n]
  | fuel + 1, n =>
      if n < 10 then [digitChar n]
      else natToStrGo fuel (n / 10) ++ [digitChar (n % 10)]

/-- Decimal representation of a natural number: the model of Python's
`str(user_id)` inside the f-string `f"{user_id}:{source}"`. -/
def natToStrAux (n : Nat) : List Char := natToStrGo n n

theorem digitChar_lt_ne_colon : ∀ d, d < 10 → digitChar d ≠ ':' := by decide

theorem digitChar_lt_inj :
    ∀ d₁, d₁ < 10 → ∀ d₂, d₂ < 10 → digitChar d₁ = digitChar d₂ → d₁ = d₂ := by
  decide

theorem natToStrGo_fuel : ∀ f f' n, n ≤ f → n ≤ f' →
    natToStrGo f n = natToStrGo f' n := by
  intro f
  induction f with
  | zero =>
    intro f' n hf _
    interval_cases n
    cases f' with
    | zero => rfl
    | succ g => simp [natToStrGo]
  | succ g ih =>
    intro f' n hf hf'
    by_cases h10 : n < 10
    · cases f' with
      | zero =>
        interval_cases n <;> simp [natToStrGo]
      | succ g' => simp [natToStrGo, h10]
    · cases f' with
      | zero => omega
      | succ g' =>
        simp only [natToStrGo, h10, if_false]
        have hlt : n / 10 < n := Nat.div_lt_self (by omega) (by omega)
        have hd : n / 10 ≤ g := by omega
        have hd' : n / 10 ≤ g' := by omega
        rw [ih g' (n / 10) hd hd']

theorem natToStrAux_lt (n : Nat) (h : n < 10) : natToStrAux n = [digitChar n] := by
  unfold natToStrAux
  cases n with
  | zero => rfl
  | succ m => simp [natToStrGo, h]

theorem natToStrAux_ge (n : Nat) (h : ¬ n < 10) :
    natToStrAux n = natToStrAux (n / 10) ++ [digitChar (n % 10)] := by
  unfold natToStrAux
  obtain ⟨m, rfl⟩ : ∃ m, n = m + 1 := ⟨n - 1, by omega⟩
  simp only [natToStrGo, h, if_false]
  have hd : (m + 1) / 10 ≤ m := by
    have hlt : (m + 1) / 10 < m + 1 := Nat.div_lt_self (by omega) (by omega)
    omega
  rw [natToStrGo_fuel m ((m + 1) / 10) ((m + 1) / 10) hd (le_refl _)]

theorem natToStrAux_ne_nil (n : Nat) : natToStrAux n ≠ [] := by
  by_cases h : n < 10
  · rw [natToStrAux_lt n h]; simp
  · rw [natToStrAux_ge n h]; simp

theorem natToStrAux_no_colon (n : Nat) : ∀ c ∈ natToStrAux n, c ≠ ':' := by
  induction n using Nat.strong_induction_on with
  | _ n ih =>
    by_cases h : n < 10
    · rw [natToStrAux_lt n h]
      intro c hc
      simp at hc
      subst hc
      exact digitChar_lt_ne_colon n h
    · rw [natToStrAux_ge n h]
      intro c hc
      rcases List.mem_append.mp hc with h1 | h2
      · exact ih (n / 10) (Nat.div_lt_self (by omega) (by omega)) c h1
      · simp at h2
        subst h2
        exact digitChar_lt_ne_colon _ (Nat.mod_lt _ (by omega))

theorem natToStrAux_inj : ∀ m n, natToStrAux m = natToStrAux n → m = n := by
  intro m
  induction m using Nat.strong_induction_on with
  | _ m ih =>
    intro n heq
    by_cases hm : m < 10 <;> by_cases hn : n < 10
    · rw [natToStrAux_lt m hm, natToStrAux_lt n hn] at heq
      simp at heq
      exact digitChar_lt_inj m hm n hn heq
    · rw [natToStrAux_lt m hm, natToStrAux_ge n hn] at heq
      have hlen := congrArg List.length heq
      simp at hlen
      have := natToStrAux_ne_nil (n / 10)
      cases hne : natToStrAux (n / 10) with
      | nil => exact absurd hne this
      | cons a t => rw [hne] at hlen; simp at hlen
    · rw [natToStrAux_ge m hm, natToStrAux_lt n hn] at heq
      have hlen := congrArg List.length heq
      simp at hlen
      have := natToStrAux_ne_nil (m / 10)
      cases hne : natToStrAux (m / 10) with
      | nil => exact absurd hne this
      | cons a t => rw [hne] at hlen; simp at hlen
    · rw [natToStrAux_ge m hm, natToStrAux_ge n hn] at heq
      have hsp := List.append_inj' heq (by simp)
      have hdiv : m / 10 = n / 10 :=
        ih (m / 10) (Nat.div_lt_self (by omega) (by omega)) (n / 10) hsp.1
      have hmod : m % 10 = n % 10 := by
        have := hsp.2
        simp at this
        exact digitChar_lt_inj _ (Nat.mod_lt _ (by omega)) _ (Nat.mod_lt _ (by omega)) this
      omega

/-- Node identifier `f"{user_id}:{source}"` used by `_add_to_graph` and all
graph reads. -/
def mkNode (u : Nat) (c : String) : String := ⟨natToStrAux u ++ ':' :: c.data⟩

/-- Splitting a string at the first `':'` of a colon-free block is injective:
distinct users or distinct concepts give distinct node identifiers. -/
theorem colon_block_inj :
    ∀ (xs xs' ys ys' : List Char), (∀ a ∈ xs, a ≠ ':') → (∀ a ∈ xs', a ≠ ':') →
      xs ++ ':' :: ys = xs' ++ ':' :: ys' → xs = xs' ∧ ys = ys' := by
  intro xs
  induction xs with
  | nil =>
    intro xs' ys ys' _ hx' heq
    cases xs' with
    | nil => simp_all
    | cons b t =>
      simp at heq
      exact absurd heq.1.symm (hx' b (by simp))
  | cons a t iht =>
    intro xs' ys ys' hx hx' heq
    cases xs' with
    | nil =>
      simp at heq
      exact absurd heq.1 (hx a (by simp))
    | cons b t' =>
      simp at heq
      obtain ⟨hab, hrest⟩ := heq
      have := iht t' ys ys' (fun c hc => hx c (by simp [hc]))
        (fun c hc => hx' c (by simp [hc])) hrest
      simp_all

theorem mkNode_inj {u u' : Nat} {c c' : String} (h : mkNode u c = mkNode u' c') :
    u = u' ∧ c = c' := by
  have hdata : natToStrAux u ++ ':' :: c.data = natToStrAux u' ++ ':' :: c'.data := by
    have := congrArg String.data h
    simpa [mkNode] using this
  have := colon_block_inj _ _ _ _ (natToStrAux_no_colon u) (natToStrAux_no_colon u') hdata
  refine ⟨natToStrAux_inj _ _ this.1, ?_⟩
  cases c with
  | mk d => cases c' with
    | mk d' => exact congrArg String.mk this.2

/-- Characters after the first `':'`, if any: `s.split(":", 1)[1]`. -/
def afterColon : List Char → Option (List Char)
  | [] => none
  | c :: cs => if c = ':' then some cs else afterColon cs

/-- `neighbor.split(":", 1)[1] if ":" in neighbor else neighbor`. -/
def stripUser (s : String) : String :=
  match afterColon s.data with
  | some r => ⟨r⟩
  | none => s

theorem afterColon_of_no_colon (xs ys : List Char) (h : ∀ a ∈ xs, a ≠ ':') :
    afterColon (xs ++ ':' :: ys) = some ys := by
  induction xs with
  | nil => simp [afterColon]
  | cons a t iht =>
    have ha : a ≠ ':' := h a (by simp)
    simp [afterColon, ha]
    exact iht fun c hc => h c (by simp [hc])

theorem stripUser_mkNode (u : Nat) (c : String) : stripUser (mkNode u c) = c := by
  unfold stripUser mkNode
  rw [afterColon_of_no_colon _ _ (natToStrAux_no_colon u)]

/-- `hay` begins with `pat`. -/
def startsList : List Char → List Char → Bool
  | _, [] => true
  | [], _ :: _ => false
  | c :: cs, d :: ds => c = d && startsList cs ds

/-- Python's substring test `pat in hay`. -/
def hasSub (hay pat : List Char) : Bool :=
  match hay with
  | [] => pat.isEmpty
  | _ :: t => startsList hay pat || hasSub t pat

/-- `pat in hay` on strings. -/
def containsStr (hay pat : String) : Bool := hasSub hay.data pat.data

/-- `str.lower()` (ASCII case folding suffices for this engine's inputs). -/
def lowerStr (s : String) : String := ⟨s.data.map Char.toLower⟩

/-- An embedding vector; the float components are modelled as rationals. -/
abbrev Emb := List ℚ

/-- The `metadata` JSON column, one shape per `memory_type`; JSON
serialisation round-trips these values, so dump/load is the identity here. -/
inductive Metadata where
  | conv (user_message ai_response : String) (tools_used : List String)
  | act (result : List (String × String))
  | sem (related_concepts : List String)
deriving DecidableEq

/-- A row of the `memory_entries` table / the `MemoryEntry` dataclass. -/
structure MemoryEntry where
  user_id : Nat
  content : String
  memory_type : String
  metadata : Metadata
  timestamp : Nat
  embedding : Option Emb
deriving DecidableEq

/-- A row of the durable `knowledge_graph` table. -/
structure GraphRow where
  user_id : Nat
  source_node : String
  target_node : String
  relationship : String
  weight : ℚ
  timestamp : Nat
deriving DecidableEq

/-- Attribute set of one edge of the in-memory `networkx.DiGraph`. -/
structure EdgeAttrs where
  relationship : String
  weight : ℚ
deriving DecidableEq

/-- The in-memory `networkx.DiGraph` mirror: at most one edge per ordered
pair of node identifiers; `add_edge` on an existing pair overwrites the
attributes in place, keeping the adjacency position. -/
abbrev Mirror := List (String × String × EdgeAttrs)

def Mirror.hasPair : Mirror → String → String → Bool
  | [], _, _ => false
  | e :: r, s, t => (e.1 = s && e.2.1 = t) || Mirror.hasPair r s t

/-- Elementwise update applied by `add_edge` on an existing ordered pair. -/
def updEdge (s t : String) (a : EdgeAttrs) (e : String × String × EdgeAttrs) :
    String × String × EdgeAttrs :=
  if e.1 = s && e.2.1 = t then (s, t, a) else e

/-- `G.add_edge(s, t, relationship=…, weight=…)`: one edge per ordered
pair; re-adding overwrites the attributes in place. -/
def Mirror.addEdge (m : Mirror) (s t : String) (a : EdgeAttrs) : Mirror :=
  if m.hasPair s t then m.map (updEdge s t a)
  else m ++ [(s, t, a)]

/-- `x in G` (node membership; nodes exist only as edge endpoints here). -/
def Mirror.hasNode : Mirror → String → Bool
  | [], _ => false
  | e :: r, x => (e.1 = x || e.2.1 = x) || Mirror.hasNode r x

/-- `G.neighbors(x)`: successors, in adjacency-insertion order. -/
def Mirror.succs : Mirror → String → List String
  | [], _ => []
  | e :: r, x => if e.1 = x then e.2.1 :: Mirror.succs r x else Mirror.succs r x

/-- `G.get_edge_data(s, t).get('relationship', 'related')`. -/
def Mirror.relOf : Mirror → String → String → String
  | [], _, _ => "related"
  | e :: r, s, t =>
      if e.1 = s ∧ e.2.1 = t then e.2.2.relationship else Mirror.relOf r s t

/-- Whole engine state: the two durable tables plus the in-memory mirror. -/
structure MemoryState where
  entries : List MemoryEntry
  graphRows : List GraphRow
  mirror : Mirror
deriving DecidableEq

def initialState : MemoryState := ⟨[], [], []⟩

/-- The embedding provider `SentenceTransformer.encode`: an external,
fallible capability. `none` models a raised exception. -/
abbrev EmbedFn := String → Option Emb

/-- `_store_entry`: the embedding is computed first; on failure the
exception propagates before the database connection is even opened, so
nothing is persisted. -/
def storeEntry (embed : EmbedFn) (st : MemoryState) (e : MemoryEntry) :
    Option MemoryState :=
  match embed e.content with
  | none => none
  | some emb =>
      some { st with entries := st.entries ++ [{ e with embedding := some emb }] }

/-- `_add_to_graph`: durable insert into `knowledge_graph`, then the
in-memory mirror update. -/
def addToGraph (st : MemoryState) (u : Nat) (src tgt rel : String)
    (w : ℚ) (now : Nat) : MemoryState :=
  { st with
    graphRows := st.graphRows ++ [⟨u, src, tgt, rel, w, now⟩],
    mirror := st.mirror.addEdge (mkNode u src) (mkNode u tgt) ⟨rel, w⟩ }

/-- `f"User: {user_message}\nAI: {ai_response}"`. -/
def convContent (userMessage aiResponse : String) : String :=
  "User: " ++ userMessage ++ "\nAI: " ++ aiResponse

/-- `store_conversation`. -/
def storeConversation (embed : EmbedFn) (st : MemoryState) (u : Nat)
    (userMessage aiResponse : String) (toolsUsed : List String) (now : Nat) :
    Option MemoryState :=
  storeEntry embed st
    { user_id := u
      content := convContent userMessage aiResponse
      memory_type := "conversation"
      metadata := .conv userMessage aiResponse toolsUsed
      timestamp := now
      embedding := none }

/-- `result[key]` lookup in the episodic result map. -/
def lookupMeta : List (String × String) → String → Option String
  | [], _ => none
  | (k, v) :: rest, key => if k = key then some v else lookupMeta rest key

/-- `store_episodic`: entry write first, then graph updates for link-like
metadata keys. -/
def storeEpisodic (embed : EmbedFn) (st : MemoryState) (u : Nat)
    (action : String) (result : List (String × String)) (now : Nat) :
    Option MemoryState :=
  match storeEntry embed st
      { user_id := u
        content := "Action: " ++ action
        memory_type := "episodic"
        metadata := .act result
        timestamp := now
        embedding := none } with
  | none => none
  | some st₁ =>
      let st₂ := match lookupMeta result "youtube_link" with
        | some link => addToGraph st₁ u action link "created_link" 1 now
        | none => st₁
      let st₃ := match lookupMeta result "playlist_name" with
        | some nm => addToGraph st₂ u action nm "created_playlist" 1 now
        | none => st₂
      some st₃

/-- `store_semantic`: entry write first, then one `related_to` edge per
related concept. -/
def storeSemantic (embed : EmbedFn) (st : MemoryState) (u : Nat)
    (concept : String) (relatedConcepts : List String) (now : Nat) :
    Option MemoryState :=
  match storeEntry embed st
      { user_id := u
        content := concept
        memory_type := "semantic"
        metadata := .sem relatedConcepts
        timestamp := now
        embedding := none } with
  | none => none
  | some st₁ =>
      some (relatedConcepts.foldl
        (fun s r => addToGraph s u concept r "related_to" 1 now) st₁)

/-- A row returned by the recall queries. -/
structure RecallRow where
  content : String
  metadata : Metadata
  timestamp : Nat
deriving DecidableEq

/-- `recall_conversation`: filter by user and type, `ORDER BY timestamp
DESC LIMIT ?`. The stable sort models the database ordering; ISO-8601 text
order equals chronological order. -/
def recallConversation (st : MemoryState) (u : Nat) (limit : Nat) :
    List RecallRow :=
  ((((st.entries.filter fun e =>
        decide (e.user_id = u ∧ e.memory_type = "conversation")).insertionSort
      fun a b => b.timestamp ≤ a.timestamp).take limit).map
    fun e => ⟨e.content, e.metadata, e.timestamp⟩)

/-- A row returned by `semantic_search`. -/
structure SearchRow where
  content : String
  metadata : Metadata
  timestamp : Nat
  similarity : ℚ
deriving DecidableEq

/-- `semantic_search`. The numeric kernel
`np.dot(q, e) / (np.linalg.norm(q) * np.linalg.norm(e))` runs in floating
point; it is abstracted as the parameter `sim`, so the theorems below hold
for every similarity kernel. Filter during the row scan with threshold
`> 0.5`, stable sort by similarity descending, truncate to `limit`. -/
def semanticSearch (embed : EmbedFn) (sim : Emb → Emb → ℚ) (st : MemoryState)
    (u : Nat) (query : String) (limit : Nat) : Option (List SearchRow) :=
  match embed query with
  | none => none
  | some qe =>
      let rows := st.entries.filter fun e => decide (e.user_id = u)
      let results := rows.filterMap fun e =>
        let s := sim qe (e.embedding.getD [])
        if (1 : ℚ)/2 < s then some ⟨e.content, e.metadata, e.timestamp, s⟩
        else none
      some ((results.insertionSort fun a b => b.similarity ≤ a.similarity).take limit)

/-- `get_related_concepts`: successors of the user's node, user tag
stripped; `[]` when the node is absent. -/
def getRelatedConcepts (st : MemoryState) (u : Nat) (concept : String) :
    List String :=
  let uc := mkNode u concept
  if st.mirror.hasNode uc then (st.mirror.succs uc).map stripUser else []

/-- The fixed concept vocabulary of `_extract_concepts`. -/
def programmingConcepts : List String :=
  ["python", "javascript", "recursion", "loops", "functions", "variables",
   "classes", "objects", "arrays", "strings", "algorithms", "data structures"]

/-- Python's `\s` class for the day-reference pattern. -/
def isSpaceCh (c : Char) : Bool :=
  c = ' ' || c = '\t' || c = '\n' || c = '\x0b' || c = '\x0c' || c = '\r'

def isDigitCh (c : Char) : Bool := '0' ≤ c && c ≤ '9'

/-- Scanner loop for the day-reference pattern, with explicit fuel so that
it is structural; every recursive call is on a strictly shorter list, so
fuel equal to the input length always suffices and the exhaustion branch
is unreachable from `dayScan`. -/
def dayScanGo : Nat → List Char → List (List Char)
  | 0, _ => []
  | fuel + 1, l =>
      match l with
      | 'd' :: 'a' :: 'y' :: rest =>
          let afterWs := rest.dropWhile isSpaceCh
          let ds := afterWs.takeWhile isDigitCh
          if ds.isEmpty then dayScanGo fuel ('a' :: 'y' :: rest)
          else ds :: dayScanGo fuel (afterWs.dropWhile isDigitCh)
      | _ :: cs => dayScanGo fuel cs
      | [] => []

/-- `re.findall(r'day\s*(\d+)', text_lower)`: left-to-right scan,
non-overlapping matches, greedy digit capture. -/
def dayScan (l : List Char) : List (List Char) := dayScanGo l.length l

/-- `_extract_concepts`: vocabulary containment on the lower-cased text,
then day references as `day_N`. -/
def extractConcepts (text : String) : List String :=
  let lower := lowerStr text
  let found := programmingConcepts.filter fun c => containsStr lower c
  found ++ (dayScan lower.data).map fun ds => ⟨'d' :: 'a' :: 'y' :: '_' :: ds⟩

/-- The GraphRAG context bundle built by `get_graph_context`. -/
structure GraphContext where
  related_notes : List String
  related_videos : List String
  concept_dependencies : List (String × List String)
  learning_path : List String
deriving DecidableEq

def emptyContext : GraphContext := ⟨[], [], [], []⟩

/-- Python-dict append: `d.setdefault(c, []).append(x)` on an
insertion-ordered association list. -/
def appendDep : List (String × List String) → String → String →
    List (String × List String)
  | [], c, x => [(c, [x])]
  | (k, v) :: rest, c, x =>
      if k = c then (k, v ++ [x]) :: rest else (k, v) :: appendDep rest c x

/-- Lookup in `concept_dependencies`, empty when absent. -/
def lookupDep : List (String × List String) → String → List String
  | [], _ => []
  | (k, v) :: rest, c => if k = c then v else lookupDep rest c

/-- One neighbor classification step of `get_graph_context`: the three
rules in source order. -/
def classifyNeighbor (m : Mirror) (uc concept nbr : String)
    (ctx : GraphContext) : GraphContext :=
  let rel := m.relOf uc nbr
  let clean := stripUser nbr
  if containsStr rel "note" || containsStr (lowerStr clean) "day" then
    { ctx with related_notes := ctx.related_notes ++ [clean] }
  else if containsStr rel "video" || containsStr (lowerStr clean) "youtube" then
    { ctx with related_videos := ctx.related_videos ++ [clean] }
  else if containsStr rel "depends" then
    { ctx with concept_dependencies :=
        appendDep ctx.concept_dependencies concept clean }
  else ctx

/-- All neighbors of one extracted concept, skipped when the node is
absent (not an error). -/
def processConcept (m : Mirror) (u : Nat) (ctx : GraphContext)
    (concept : String) : GraphContext :=
  let uc := mkNode u concept
  if m.hasNode uc then
    (m.succs uc).foldl (fun c n => classifyNeighbor m uc concept n c) ctx
  else ctx

/-- `get_graph_context` / `resolve_graph_context`. -/
def getGraphContext (st : MemoryState) (u : Nat) (query : String) :
    GraphContext :=
  (extractConcepts query).foldl (processConcept st.mirror u) emptyContext

/-- `link_concepts`: forward edge plus `reverse_`-prefixed backward edge. -/
def linkConcepts (st : MemoryState) (u : Nat) (src tgt rel : String)
    (now : Nat) : MemoryState :=
  let st₁ := addToGraph st u src tgt rel 1 now
  addToGraph st₁ u tgt src ("reverse_" ++ rel) 1 now

/-- `create_learning_path_graph`: the `day_N → concept` teaches link, then
resource links classified by substring heuristics; a resource matching no
heuristic produces no edge. -/
def createLearningPathGraph (st : MemoryState) (u : Nat) (day : Nat)
    (concept : String) (resources : List String) (now : Nat) : MemoryState :=
  let dayNode : String := ⟨'d' :: 'a' :: 'y' :: '_' :: natToStrAux day⟩
  let st₁ := linkConcepts st u dayNode concept "teaches" now
  resources.foldl (fun s r =>
    if containsStr r "youtube" || containsStr r "video" then
      linkConcepts s u concept r "video_resource" now
    else if containsStr r "notes" || containsStr r "drive" then
      linkConcepts s u concept r "note_resource" now
    else s) st₁

/-- `cleanup_old_memories`: delete conversation entries of the user older
than `now - days`; nothing else is touched. -/
def cleanupOldMemories (st : MemoryState) (u : Nat) (now days : Nat) :
    MemoryState :=
  let cutoff := now - days
  { st with entries := st.entries.filter fun e =>
      !(decide (e.user_id = u ∧ e.timestamp < cutoff ∧
                e.memory_type = "conversation")) }

/-- The graph-writing operations of the public interface, used to state
isolation over arbitrary write sequences. -/
inductive GraphWrite where
  | edge (src tgt rel : String) (w : ℚ) (now : Nat)
  | link (src tgt rel : String) (now : Nat)
  | semantic (concept : String) (related : List String) (emb : Emb) (now : Nat)
  | learningPath (day : Nat) (concept : String) (resources : List String) (now : Nat)

/-- Run one graph write on behalf of a user. -/
def applyWrite (st : MemoryState) : Nat × GraphWrite → MemoryState
  | (u, .edge s t r w now) => addToGraph st u s t r w now
  | (u, .link s t r now) => linkConcepts st u s t r now
  | (u, .semantic c rel emb now) =>
      (storeSemantic (fun _ => some emb) st u c rel now).getD st
  | (u, .learningPath d c rs now) => createLearningPathGraph st u d c rs now

/-- Run a sequence of graph writes. -/
def applyWrites (ws : List (Nat × GraphWrite)) (st : MemoryState) :
    MemoryState :=
  ws.foldl applyWrite st

/-! ### Mirror lemmas -/

theorem hasPair_iff : ∀ (m : Mirror) (s t : String),
    m.hasPair s t = true ↔ ∃ a, (s, t, a) ∈ m := by
  intro m s t
  induction m with
  | nil => simp [Mirror.hasPair]
  | cons e r ih =>
    obtain ⟨e₁, e₂, e₃⟩ := e
    simp only [Mirror.hasPair, Bool.or_eq_true, ih]
    constructor
    · rintro (h | ⟨a, ha⟩)
      · simp only [Bool.and_eq_true, decide_eq_true_eq] at h
        exact ⟨e₃, by simp [h.1, h.2]⟩
      · exact ⟨a, by simp [ha]⟩
    · rintro ⟨a, ha⟩
      rcases List.mem_cons.mp ha with h | h
      · left
        simp only [Prod.mk.injEq] at h
        simp [h.1, h.2.1]
      · right
        exact ⟨a, h⟩

theorem hasPair_eq_false_iff (m : Mirror) (s t : String) :
    m.hasPair s t = false ↔ ∀ e ∈ m, ¬(e.1 = s ∧ e.2.1 = t) := by
  constructor
  · intro h e he hc
    have ht : m.hasPair s t = true :=
      (hasPair_iff m s t).mpr ⟨e.2.2, by rw [← hc.1, ← hc.2]; exact he⟩
    rw [h] at ht
    exact absurd ht Bool.false_ne_true
  · intro h
    by_contra hc
    have hb : m.hasPair s t = true := by
      cases hb2 : m.hasPair s t
      · exact absurd hb2 hc
      · rfl
    obtain ⟨a, ha⟩ := (hasPair_iff m s t).mp hb
    exact h (s, t, a) ha ⟨rfl, rfl⟩

theorem mem_succs_iff : ∀ (m : Mirror) (x y : String),
    y ∈ m.succs x ↔ ∃ a, (x, y, a) ∈ m := by
  intro m x y
  induction m with
  | nil => simp [Mirror.succs]
  | cons e r ih =>
    obtain ⟨e₁, e₂, e₃⟩ := e
    simp only [Mirror.succs]
    by_cases he : e₁ = x
    · subst he
      rw [if_pos rfl]
      constructor
      · intro hy
        rcases List.mem_cons.mp hy with h | h
        · subst h
          exact ⟨e₃, by simp⟩
        · obtain ⟨a, ha⟩ := ih.mp h
          exact ⟨a, List.mem_cons_of_mem _ ha⟩
      · rintro ⟨a, ha⟩
        rcases List.mem_cons.mp ha with h | h
        · simp only [Prod.mk.injEq] at h
          rw [h.2.1]
          exact List.mem_cons_self _ _
        · exact List.mem_cons_of_mem _ (ih.mpr ⟨a, h⟩)
    · rw [if_neg he, ih]
      constructor
      · rintro ⟨a, ha⟩
        exact ⟨a, List.mem_cons_of_mem _ ha⟩
      · rintro ⟨a, ha⟩
        rcases List.mem_cons.mp ha with h | h
        · simp only [Prod.mk.injEq] at h
          exact absurd h.1.symm he
        · exact ⟨a, h⟩

theorem hasNode_of_mem_src : ∀ {m : Mirror} {x y : String} {a : EdgeAttrs},
    (x, y, a) ∈ m → m.hasNode x = true := by
  intro m x y a h
  induction m with
  | nil => simp at h
  | cons e r ih =>
    simp only [Mirror.hasNode, Bool.or_eq_true]
    rcases List.mem_cons.mp h with h1 | h1
    · left
      left
      rw [← h1]
      simp
    · right
      exact ih h1

theorem hasNode_eq_false_succs : ∀ {m : Mirror} {x : String},
    m.hasNode x = false → m.succs x = [] := by
  intro m x h
  induction m with
  | nil => rfl
  | cons e r ih =>
    simp only [Mirror.hasNode, Bool.or_eq_false_iff] at h
    simp only [Mirror.succs]
    rw [if_neg (by simpa using h.1.1)]
    exact ih h.2

theorem relOf_map_upd_ne {s t s' t' : String} (a : EdgeAttrs)
    (h : ¬(s' = s ∧ t' = t)) :
    ∀ m : Mirror, Mirror.relOf (m.map (updEdge s t a)) s' t'
      = Mirror.relOf m s' t' := by
  intro m
  induction m with
  | nil => rfl
  | cons e r ih =>
    rw [List.map_cons]
    by_cases he : e.1 = s ∧ e.2.1 = t
    · have h1 : updEdge s t a e = (s, t, a) := by simp [updEdge, he.1, he.2]
      rw [h1]
      simp only [Mirror.relOf]
      rw [if_neg (by rintro ⟨h1, h2⟩; exact h ⟨h1.symm, h2.symm⟩),
        if_neg (by rintro ⟨h1, h2⟩; exact h ⟨h1.symm.trans he.1, h2.symm.trans he.2⟩)]
      exact ih
    · have h1 : updEdge s t a e = e := by
        unfold updEdge
        rw [if_neg (by simpa using he)]
      rw [h1]
      simp only [Mirror.relOf]
      by_cases hq : e.1 = s' ∧ e.2.1 = t'
      · rw [if_pos hq, if_pos hq]
      · rw [if_neg hq, if_neg hq]
        exact ih

theorem relOf_map_upd_self {s t : String} (a : EdgeAttrs) :
    ∀ m : Mirror, m.hasPair s t = true →
      Mirror.relOf (m.map (updEdge s t a)) s t = a.relationship := by
  intro m
  induction m with
  | nil => intro h; simp [Mirror.hasPair] at h
  | cons e r ih =>
    intro h
    rw [List.map_cons]
    by_cases he : e.1 = s ∧ e.2.1 = t
    · have h1 : updEdge s t a e = (s, t, a) := by simp [updEdge, he.1, he.2]
      rw [h1]
      simp [Mirror.relOf]
    · have h1 : updEdge s t a e = e := by
        unfold updEdge
        rw [if_neg (by simpa using he)]
      have hr : Mirror.hasPair r s t = true := by
        simp only [Mirror.hasPair, Bool.or_eq_true] at h
        rcases h with h | h
        · exact absurd (by simpa using h) he
        · exact h
      rw [h1]
      simp only [Mirror.relOf]
      rw [if_neg he]
      exact ih hr

theorem relOf_append_single_ne {s t s' t' : String} (a : EdgeAttrs)
    (h : ¬(s' = s ∧ t' = t)) :
    ∀ m : Mirror, Mirror.relOf (m ++ [(s, t, a)]) s' t'
      = Mirror.relOf m s' t' := by
  intro m
  induction m with
  | nil =>
    simp only [List.nil_append, Mirror.relOf]
    rw [if_neg (by rintro ⟨h1, h2⟩; exact h ⟨h1.symm, h2.symm⟩)]
  | cons e r ih =>
    rw [List.cons_append]
    simp only [Mirror.relOf]
    by_cases hq : e.1 = s' ∧ e.2.1 = t'
    · rw [if_pos hq, if_pos hq]
    · rw [if_neg hq, if_neg hq]
      exact ih

theorem relOf_append_single_self {s t : String} (a : EdgeAttrs) :
    ∀ m : Mirror, m.hasPair s t = false →
      Mirror.relOf (m ++ [(s, t, a)]) s t = a.relationship := by
  intro m
  induction m with
  | nil =>
    intro _
    simp [Mirror.relOf]
  | cons e r ih =>
    intro h
    simp only [Mirror.hasPair, Bool.or_eq_false_iff] at h
    rw [List.cons_append]
    simp only [Mirror.relOf]
    rw [if_neg (by simpa using h.1)]
    exact ih h.2

/-- `add_edge` is faithful to the mirror for the inserted pair: its
attributes are the ones subsequently observed. -/
theorem relOf_addEdge_self (m : Mirror) (s t : String) (a : EdgeAttrs) :
    (m.addEdge s t a).relOf s t = a.relationship := by
  unfold Mirror.addEdge
  by_cases hp : m.hasPair s t = true
  · rw [if_pos hp]
    exact relOf_map_upd_self a m hp
  · rw [if_neg hp]
    exact relOf_append_single_self a m (by simpa using hp)

/-- `add_edge` leaves every other ordered pair's attributes unchanged. -/
theorem relOf_addEdge_ne (m : Mirror) {s t s' t' : String} (a : EdgeAttrs)
    (h : ¬(s' = s ∧ t' = t)) :
    (m.addEdge s t a).relOf s' t' = m.relOf s' t' := by
  unfold Mirror.addEdge
  by_cases hp : m.hasPair s t = true
  · rw [if_pos hp]
    exact relOf_map_upd_ne a h m
  · rw [if_neg hp]
    exact relOf_append_single_ne a h m

/-- An edge with a different ordered pair survives `add_edge` unchanged. -/
theorem mem_addEdge_of_mem_ne {m : Mirror} {s t s' t' : String}
    {b : EdgeAttrs} (a : EdgeAttrs) (hm : (s', t', b) ∈ m)
    (h : ¬(s' = s ∧ t' = t)) : (s', t', b) ∈ m.addEdge s t a := by
  unfold Mirror.addEdge
  by_cases hp : m.hasPair s t = true
  · rw [if_pos hp, List.mem_map]
    refine ⟨(s', t', b), hm, ?_⟩
    unfold updEdge
    rw [if_neg (by simpa using h)]
  · rw [if_neg hp]
    exact List.mem_append_left _ hm

theorem mem_addEdge_self (m : Mirror) (s t : String) (a : EdgeAttrs) :
    (s, t, a) ∈ m.addEdge s t a := by
  unfold Mirror.addEdge
  by_cases hp : m.hasPair s t = true
  · rw [if_pos hp, List.mem_map]
    obtain ⟨b, hb⟩ := (hasPair_iff m s t).mp hp
    exact ⟨(s, t, b), hb, by simp [updEdge]⟩
  · rw [if_neg hp]
    exact List.mem_append_right _ (by simp)

theorem succs_map_upd_ne {s x : String} (t : String) (a : EdgeAttrs)
    (h : x ≠ s) :
    ∀ m : Mirror, Mirror.succs (m.map (updEdge s t a)) x = m.succs x := by
  intro m
  induction m with
  | nil => rfl
  | cons e r ih =>
    rw [List.map_cons]
    by_cases he : e.1 = s ∧ e.2.1 = t
    · have h1 : updEdge s t a e = (s, t, a) := by simp [updEdge, he.1, he.2]
      rw [h1]
      simp only [Mirror.succs]
      rw [if_neg (fun hc => h hc.symm), if_neg (fun hc => h (hc.symm.trans he.1))]
      exact ih
    · have h1 : updEdge s t a e = e := by
        unfold updEdge
        rw [if_neg (by simpa using he)]
      rw [h1]
      simp only [Mirror.succs]
      by_cases hex : e.1 = x
      · rw [if_pos hex, if_pos hex, ih]
      · rw [if_neg hex, if_neg hex]
        exact ih

theorem succs_append_single_ne {s x : String} (t : String) (a : EdgeAttrs)
    (h : x ≠ s) :
    ∀ m : Mirror, Mirror.succs (m ++ [(s, t, a)]) x = m.succs x := by
  intro m
  induction m with
  | nil =>
    simp only [List.nil_append, Mirror.succs]
    rw [if_neg (fun hc => h hc.symm)]
  | cons e r ih =>
    rw [List.cons_append]
    simp only [Mirror.succs]
    by_cases hex : e.1 = x
    · rw [if_pos hex, if_pos hex, ih]
    · rw [if_neg hex, if_neg hex]
      exact ih

/-- Successors of any node other than the inserted source are untouched. -/
theorem succs_addEdge_ne (m : Mirror) {s x : String} (t : String)
    (a : EdgeAttrs) (h : x ≠ s) :
    (m.addEdge s t a).succs x = m.succs x := by
  unfold Mirror.addEdge
  by_cases hp : m.hasPair s t = true
  · rw [if_pos hp]
    exact succs_map_upd_ne t a h m
  · rw [if_neg hp]
    exact succs_append_single_ne t a h m

theorem hasNode_map_upd_ne {s t x : String} (a : EdgeAttrs)
    (hs : x ≠ s) (ht : x ≠ t) :
    ∀ m : Mirror, Mirror.hasNode (m.map (updEdge s t a)) x = m.hasNode x := by
  intro m
  induction m with
  | nil => rfl
  | cons e r ih =>
    rw [List.map_cons]
    by_cases he : e.1 = s ∧ e.2.1 = t
    · have h1 : updEdge s t a e = (s, t, a) := by simp [updEdge, he.1, he.2]
      rw [h1]
      simp only [Mirror.hasNode]
      rw [ih]
      congr 1
      simp [Ne.symm hs, Ne.symm ht, he.1, he.2]
    · have h1 : updEdge s t a e = e := by
        unfold updEdge
        rw [if_neg (by simpa using he)]
      rw [h1]
      simp only [Mirror.hasNode]
      rw [ih]

theorem hasNode_append_single_ne {s t x : String} (a : EdgeAttrs)
    (hs : x ≠ s) (ht : x ≠ t) :
    ∀ m : Mirror, Mirror.hasNode (m ++ [(s, t, a)]) x = m.hasNode x := by
  intro m
  induction m with
  | nil =>
    simp only [List.nil_append, Mirror.hasNode]
    simp [Ne.symm hs, Ne.symm ht]
  | cons e r ih =>
    rw [List.cons_append]
    simp only [Mirror.hasNode]
    rw [ih]

/-- Node presence of a node distinct from both inserted endpoints is
untouched. -/
theorem hasNode_addEdge_ne (m : Mirror) {s t x : String} (a : EdgeAttrs)
    (hs : x ≠ s) (ht : x ≠ t) :
    (m.addEdge s t a).hasNode x = m.hasNode x := by
  unfold Mirror.addEdge
  by_cases hp : m.hasPair s t = true
  · rw [if_pos hp]
    exact hasNode_map_upd_ne a hs ht m
  · rw [if_neg hp]
    exact hasNode_append_single_ne a hs ht m

/-! ### State-level helpers -/

theorem addToGraph_entries (st : MemoryState) (u : Nat) (src tgt rel : String)
    (w : ℚ) (now : Nat) :
    (addToGraph st u src tgt rel w now).entries = st.entries := rfl

theorem foldl_addToGraph_entries (u now : Nat) (concept : String) :
    ∀ (l : List String) (st : MemoryState),
      (l.foldl (fun s r => addToGraph s u concept r "related_to" 1 now) st).entries
        = st.entries := by
  intro l
  induction l with
  | nil => intro st; rfl
  | cons x xs ih =>
    intro st
    rw [List.foldl_cons, ih]
    rfl

theorem foldl_addToGraph_rows (u now : Nat) (concept : String) :
    ∀ (l : List String) (st : MemoryState),
      (l.foldl (fun s r => addToGraph s u concept r "related_to" 1 now) st).graphRows
        = st.graphRows ++ l.map fun x => ⟨u, concept, x, "related_to", 1, now⟩ := by
  intro l
  induction l with
  | nil => intro st; simp
  | cons x xs ih =>
    intro st
    rw [List.foldl_cons, ih, List.map_cons]
    show st.graphRows ++ [⟨u, concept, x, "related_to", 1, now⟩] ++ _ = _
    rw [List.append_assoc]
    rfl

/-! ### C1 -/

/-- C1: on every storing call the embedding is computed before the durable
write; if it fails the call returns no state at all (store unchanged), and
on success exactly one entry is appended, carrying the computed embedding. -/
theorem store_embedding_all_or_nothing (embed : EmbedFn) (st : MemoryState)
    (u now : Nat) (msg reply action concept : String) (tools : List String)
    (result : List (String × String)) (rel : List String) :
    (embed (convContent msg reply) = none →
      storeConversation embed st u msg reply tools now = none) ∧
    (embed ("Action: " ++ action) = none →
      storeEpisodic embed st u action result now = none) ∧
    (embed concept = none →
      storeSemantic embed st u concept rel now = none) ∧
    (∀ emb, embed (convContent msg reply) = some emb →
      ∃ st', storeConversation embed st u msg reply tools now = some st' ∧
        st'.entries = st.entries ++
          [⟨u, convContent msg reply, "conversation", .conv msg reply tools,
            now, some emb⟩]) ∧
    (∀ emb, embed ("Action: " ++ action) = some emb →
      ∃ st', storeEpisodic embed st u action result now = some st' ∧
        st'.entries = st.entries ++
          [⟨u, "Action: " ++ action, "episodic", .act result, now, some emb⟩]) ∧
    (∀ emb, embed concept = some emb →
      ∃ st', storeSemantic embed st u concept rel now = some st' ∧
        st'.entries = st.entries ++
          [⟨u, concept, "semantic", .sem rel, now, some emb⟩]) := by
  refine ⟨?_, ?_, ?_, ?_, ?_, ?_⟩
  · intro h
    simp [storeConversation, storeEntry, h]
  · intro h
    simp [storeEpisodic, storeEntry, h]
  · intro h
    simp [storeSemantic, storeEntry, h]
  · intro emb h
    refine ⟨{ st with entries := st.entries ++
      [⟨u, convContent msg reply, "conversation", .conv msg reply tools,
        now, some emb⟩] }, ?_, rfl⟩
    simp [storeConversation, storeEntry, h]
  · intro emb h
    unfold storeEpisodic
    rw [show storeEntry embed st
        { user_id := u, content := "Action: " ++ action,
          memory_type := "episodic", metadata := .act result,
          timestamp := now, embedding := none } = some
        { st with entries := st.entries ++
            [⟨u, "Action: " ++ action, "episodic", .act result, now, some emb⟩] }
      from by simp [storeEntry, h]]
    refine ⟨_, rfl, ?_⟩
    cases lookupMeta result "youtube_link" <;>
      cases lookupMeta result "playlist_name" <;> rfl
  · intro emb h
    unfold storeSemantic
    rw [show storeEntry embed st
        { user_id := u, content := concept, memory_type := "semantic",
          metadata := .sem rel, timestamp := now, embedding := none } = some
        { st with entries := st.entries ++
            [⟨u, concept, "semantic", .sem rel, now, some emb⟩] }
      from by simp [storeEntry, h]]
    refine ⟨_, rfl, ?_⟩
    rw [foldl_addToGraph_entries]

/-- C1 witness: a failing provider persists nothing; a succeeding provider
persists the entry together with its embedding. -/
theorem store_embedding_all_or_nothing_witness :
    storeConversation (fun _ => none) initialState 1 "hi" "yo" [] 3 = none ∧
    ∃ st', storeSemantic (fun _ => some [1]) initialState 1 "rec" ["loops"] 3
        = some st' ∧
      st'.entries = [⟨1, "rec", "semantic", .sem ["loops"], 3, some [1]⟩] := by
  refine ⟨(store_embedding_all_or_nothing (fun _ => none) initialState 1 3
    "hi" "yo" "a" "c" [] [] []).1 rfl, ?_⟩
  obtain ⟨st', h1, h2⟩ := (store_embedding_all_or_nothing (fun _ => some [1])
    initialState 1 3 "hi" "yo" "a" "rec" [] [] ["loops"]).2.2.2.2.2 [1] rfl
  exact ⟨st', h1, by rw [h2]; rfl⟩

/-! ### C3 -/

/-- C3: the retention sweep removes exactly the user's conversation entries
strictly older than the cutoff, leaves every other entry and every graph
structure untouched, and is idempotent. -/
theorem sweep_deletes_exactly_old_conversations (st : MemoryState)
    (u now days : Nat) :
    (∀ e, e ∈ (cleanupOldMemories st u now days).entries ↔
        e ∈ st.entries ∧ ¬(e.user_id = u ∧ e.timestamp < now - days ∧
          e.memory_type = "conversation")) ∧
    (cleanupOldMemories st u now days).graphRows = st.graphRows ∧
    (cleanupOldMemories st u now days).mirror = st.mirror ∧
    (∀ e ∈ st.entries, e.memory_type ≠ "conversation" →
      e ∈ (cleanupOldMemories st u now days).entries) ∧
    cleanupOldMemories (cleanupOldMemories st u now days) u now days
      = cleanupOldMemories st u now days := by
  refine ⟨?_, rfl, rfl, ?_, ?_⟩
  · intro e
    unfold cleanupOldMemories
    simp only [List.mem_filter, Bool.not_eq_true', decide_eq_false_iff_not]
  · intro e he hne
    unfold cleanupOldMemories
    simp only [List.mem_filter]
    refine ⟨he, ?_⟩
    simp only [Bool.not_eq_eq_eq_not, Bool.not_true, decide_eq_false_iff_not]
    rintro ⟨-, -, h3⟩
    exact hne h3
  · unfold cleanupOldMemories
    simp only [MemoryState.mk.injEq, and_true]
    rw [List.filter_filter]
    apply List.filter_congr
    intro e _
    rw [Bool.and_self]

/-- C3 witness: with a 40-day-old conversation entry and a 40-day-old
episodic entry and `max_age_days = 30`, the episodic entry survives and a
second sweep changes nothing. -/
theorem sweep_deletes_exactly_old_conversations_witness :
    (⟨1, "Action: x", "episodic", .act [], 0, some [1]⟩ : MemoryEntry) ∈
      (cleanupOldMemories
        ⟨[⟨1, "User: a\nAI: b", "conversation", .conv "a" "b" [], 0, some [1]⟩,
          ⟨1, "Action: x", "episodic", .act [], 0, some [1]⟩],
         [⟨1, "p", "q", "related_to", 1, 0⟩], []⟩ 1 40 30).entries ∧
    cleanupOldMemories (cleanupOldMemories
        ⟨[⟨1, "User: a\nAI: b", "conversation", .conv "a" "b" [], 0, some [1]⟩,
          ⟨1, "Action: x", "episodic", .act [], 0, some [1]⟩],
         [⟨1, "p", "q", "related_to", 1, 0⟩], []⟩ 1 40 30) 1 40 30
      = cleanupOldMemories
        ⟨[⟨1, "User: a\nAI: b", "conversation", .conv "a" "b" [], 0, some [1]⟩,
          ⟨1, "Action: x", "episodic", .act [], 0, some [1]⟩],
         [⟨1, "p", "q", "related_to", 1, 0⟩], []⟩ 1 40 30 := by
  refine ⟨?_, ?_⟩
  · exact (sweep_deletes_exactly_old_conversations _ 1 40 30).2.2.2.1 _
      (by decide) (by decide)
  · exact (sweep_deletes_exactly_old_conversations _ 1 40 30).2.2.2.2

/-! ### C10 -/

theorem foldl_resources_id (u now : Nat) (concept : String) :
    ∀ (rs : List String) (s : MemoryState),
      (∀ r ∈ rs, containsStr r "youtube" = false ∧
        containsStr r "video" = false ∧ containsStr r "notes" = false ∧
        containsStr r "drive" = false) →
      rs.foldl (fun s r =>
        if containsStr r "youtube" || containsStr r "video" then
          linkConcepts s u concept r "video_resource" now
        else if containsStr r "notes" || containsStr r "drive" then
          linkConcepts s u concept r "note_resource" now
        else s) s = s := by
  intro rs
  induction rs with
  | nil => intro s _; rfl
  | cons r tl ih =>
    intro s h
    have hr := h r (by simp)
    rw [List.foldl_cons]
    rw [show (if containsStr r "youtube" || containsStr r "video" then
        linkConcepts s u concept r "video_resource" now
      else if containsStr r "notes" || containsStr r "drive" then
        linkConcepts s u concept r "note_resource" now
      else s) = s from by
        rw [if_neg (by simp [hr.1, hr.2.1]), if_neg (by simp [hr.2.2.1, hr.2.2.2])]]
    exact ih s fun r' hr' => h r' (by simp [hr'])

/-- C10: a resource containing none of "youtube", "video", "notes", "drive"
produces no edge at all; only the day→concept teaches links are created. -/
theorem learning_path_drops_unmatched (st : MemoryState) (u day now : Nat)
    (concept : String) (resources : List String)
    (h : ∀ r ∈ resources, containsStr r "youtube" = false ∧
      containsStr r "video" = false ∧ containsStr r "notes" = false ∧
      containsStr r "drive" = false) :
    createLearningPathGraph st u day concept resources now =
      linkConcepts st u ⟨'d' :: 'a' :: 'y' :: '_' :: natToStrAux day⟩ concept
        "teaches" now := by
  unfold createLearningPathGraph
  exact foldl_resources_id u now concept resources _ h

/-- C10 witness: two unmatched resources are dropped; the state equals the
teaches-link-only state. -/
theorem learning_path_drops_unmatched_witness :
    createLearningPathGraph initialState 1 2 "loops" ["slides", "book"] 7 =
      linkConcepts initialState 1 ⟨'d' :: 'a' :: 'y' :: '_' :: natToStrAux 2⟩
        "loops" "teaches" 7 :=
  learning_path_drops_unmatched initialState 1 2 7 "loops" ["slides", "book"]
    (by decide)

/-! ### C5 -/

/-- C5: `link` creates exactly the forward edge and the `reverse_`-prefixed
backward edge; afterwards each endpoint appears among the other's related
concepts. -/
theorem link_creates_bidirectional_pair (st : MemoryState) (u now : Nat)
    (a b rel : String) (hab : a ≠ b) :
    (linkConcepts st u a b rel now).graphRows = st.graphRows ++
      [⟨u, a, b, rel, 1, now⟩, ⟨u, b, a, "reverse_" ++ rel, 1, now⟩] ∧
    (linkConcepts st u a b rel now).mirror.relOf (mkNode u a) (mkNode u b)
      = rel ∧
    (linkConcepts st u a b rel now).mirror.relOf (mkNode u b) (mkNode u a)
      = "reverse_" ++ rel ∧
    b ∈ getRelatedConcepts (linkConcepts st u a b rel now) u a ∧
    a ∈ getRelatedConcepts (linkConcepts st u a b rel now) u b := by
  have hne : mkNode u a ≠ mkNode u b := fun h => hab (mkNode_inj h).2
  have hpairs : ¬(mkNode u a = mkNode u b ∧ mkNode u b = mkNode u a) :=
    fun h => hne h.1
  have hfwd : (mkNode u a, mkNode u b, (⟨rel, 1⟩ : EdgeAttrs)) ∈
      (linkConcepts st u a b rel now).mirror :=
    mem_addEdge_of_mem_ne _
      (mem_addEdge_self st.mirror (mkNode u a) (mkNode u b) ⟨rel, 1⟩) hpairs
  have hbwd : (mkNode u b, mkNode u a,
      (⟨"reverse_" ++ rel, 1⟩ : EdgeAttrs)) ∈
      (linkConcepts st u a b rel now).mirror :=
    mem_addEdge_self _ _ _ _
  refine ⟨?_, ?_, ?_, ?_, ?_⟩
  · show (st.graphRows ++ [⟨u, a, b, rel, 1, now⟩]) ++
      [⟨u, b, a, "reverse_" ++ rel, 1, now⟩] = _
    rw [List.append_assoc]
    rfl
  · show ((st.mirror.addEdge (mkNode u a) (mkNode u b) ⟨rel, 1⟩).addEdge
        (mkNode u b) (mkNode u a) ⟨"reverse_" ++ rel, 1⟩).relOf
        (mkNode u a) (mkNode u b) = rel
    rw [relOf_addEdge_ne _ _ hpairs]
    exact relOf_addEdge_self _ _ _ _
  · show ((st.mirror.addEdge (mkNode u a) (mkNode u b) ⟨rel, 1⟩).addEdge
        (mkNode u b) (mkNode u a) ⟨"reverse_" ++ rel, 1⟩).relOf
        (mkNode u b) (mkNode u a) = "reverse_" ++ rel
    exact relOf_addEdge_self _ _ _ _
  · simp only [getRelatedConcepts]
    rw [if_pos (hasNode_of_mem_src hfwd)]
    exact List.mem_map.mpr ⟨mkNode u b, (mem_succs_iff _ _ _).mpr ⟨_, hfwd⟩,
      stripUser_mkNode u b⟩
  · simp only [getRelatedConcepts]
    rw [if_pos (hasNode_of_mem_src hbwd)]
    exact List.mem_map.mpr ⟨mkNode u a, (mem_succs_iff _ _ _).mpr ⟨_, hbwd⟩,
      stripUser_mkNode u a⟩

/-- C5 witness at concrete concepts `A ≠ B`. -/
theorem link_creates_bidirectional_pair_witness :
    ("A" : String) ≠ "B" ∧
    "B" ∈ getRelatedConcepts (linkConcepts initialState 1 "A" "B" "related_to" 5)
      1 "A" ∧
    "A" ∈ getRelatedConcepts (linkConcepts initialState 1 "A" "B" "related_to" 5)
      1 "B" :=
  ⟨by decide,
   (link_creates_bidirectional_pair initialState 1 5 "A" "B" "related_to"
     (by decide)).2.2.2.1,
   (link_creates_bidirectional_pair initialState 1 5 "A" "B" "related_to"
     (by decide)).2.2.2.2⟩

/-! ### C4 -/

/-- C4 as stated is false at a concrete input: after two inserts with
labels `r1` then `r2` on the same ordered pair, the durable store holds
both rows, but the in-memory mirror (the structure neighbor and
graph-context reads consult) observes only `r2`; no mirror edge carries
`r1` any more. -/
theorem multigraph_mirror_counterexample :
    ((addToGraph (addToGraph initialState 1 "a" "b" "r1" 1 0)
        1 "a" "b" "r2" 1 1).graphRows.map GraphRow.relationship
      = ["r1", "r2"]) ∧
    (addToGraph (addToGraph initialState 1 "a" "b" "r1" 1 0)
        1 "a" "b" "r2" 1 1).mirror.relOf (mkNode 1 "a") (mkNode 1 "b")
      = "r2" ∧
    ∀ e ∈ (addToGraph (addToGraph initialState 1 "a" "b" "r1" 1 0)
        1 "a" "b" "r2" 1 1).mirror, e.2.2.relationship ≠ "r1" := by
  decide

/-- The mirror keeps at most one edge per ordered pair of nodes. -/
def UniquePairs (m : Mirror) : Prop :=
  ∀ s t : String, (m.filter fun e => e.1 = s && e.2.1 = t).length ≤ 1

theorem uniquePairs_addEdge {m : Mirror} (s t : String) (a : EdgeAttrs)
    (h : UniquePairs m) : UniquePairs (m.addEdge s t a) := by
  intro s' t'
  unfold Mirror.addEdge
  by_cases hp : m.hasPair s t = true
  · rw [if_pos hp, List.filter_map, List.length_map]
    have hcongr : List.filter ((fun e => e.1 = s' && e.2.1 = t') ∘ updEdge s t a) m
        = List.filter (fun e => e.1 = s' && e.2.1 = t') m := by
      apply List.filter_congr
      intro e _
      by_cases he : e.1 = s ∧ e.2.1 = t
      · have h1 : updEdge s t a e = (s, t, a) := by simp [updEdge, he.1, he.2]
        simp only [Function.comp_apply, h1]
        by_cases hq : s' = s ∧ t' = t
        · simp [he.1, he.2, hq.1, hq.2]
        · have h2 : (decide (s = s') && decide (t = t')) = false := by
            rw [Bool.and_eq_false_iff]
            by_cases h3 : s = s'
            · right
              simp only [decide_eq_false_iff_not]
              intro h4
              exact hq ⟨h3.symm, h4.symm⟩
            · left
              simp [h3]
          have h3 : (decide (e.1 = s') && decide (e.2.1 = t')) = false := by
            rw [Bool.and_eq_false_iff]
            by_cases h4 : e.1 = s'
            · right
              simp only [decide_eq_false_iff_not]
              intro h5
              exact hq ⟨h4.symm.trans he.1, h5.symm.trans he.2⟩
            · left
              simp [h4]
          rw [h2, h3]
      · have h1 : updEdge s t a e = e := by
          unfold updEdge
          rw [if_neg (by simpa using he)]
        simp [h1]
    rw [hcongr]
    exact h s' t'
  · rw [if_neg hp, List.filter_append, List.length_append]
    by_cases hq : s' = s ∧ t' = t
    · have h0 : List.filter (fun e => e.1 = s' && e.2.1 = t') m = [] := by
        rw [List.filter_eq_nil_iff]
        intro e he
        have := (hasPair_eq_false_iff m s t).mp (by simpa using hp) e he
        simp only [Bool.and_eq_true, decide_eq_true_eq, not_and]
        intro h1 h2
        exact this ⟨h1.trans hq.1, h2.trans hq.2⟩
      rw [h0]
      simp [hq.1, hq.2]
    · have h1 : List.filter (fun e => e.1 = s' && e.2.1 = t') [(s, t, a)] = [] := by
        rw [List.filter_eq_nil_iff]
        intro e he
        simp only [List.mem_singleton] at he
        subst he
        simp only [Bool.and_eq_true, decide_eq_true_eq, not_and]
        intro h2 h3
        exact hq ⟨h2.symm, h3.symm⟩
      rw [h1]
      simp only [List.length_nil, Nat.add_zero]
      exact h s' t'

/-- C4 amended: both relationship labels persist as rows of the durable
`knowledge_graph` table (multigraph), but the in-memory mirror keeps at
most one edge per ordered pair, observing only the most recently inserted
label. -/
theorem multigraph_durable_mirror_last (st : MemoryState) (u t₁ t₂ : Nat)
    (src tgt r₁ r₂ : String) (w₁ w₂ : ℚ) :
    (addToGraph (addToGraph st u src tgt r₁ w₁ t₁) u src tgt r₂ w₂ t₂).graphRows
      = st.graphRows ++ [⟨u, src, tgt, r₁, w₁, t₁⟩, ⟨u, src, tgt, r₂, w₂, t₂⟩] ∧
    (addToGraph (addToGraph st u src tgt r₁ w₁ t₁)
        u src tgt r₂ w₂ t₂).mirror.relOf (mkNode u src) (mkNode u tgt) = r₂ ∧
    (UniquePairs st.mirror → UniquePairs
      (addToGraph (addToGraph st u src tgt r₁ w₁ t₁)
        u src tgt r₂ w₂ t₂).mirror) := by
  refine ⟨?_, ?_, ?_⟩
  · show (st.graphRows ++ [⟨u, src, tgt, r₁, w₁, t₁⟩]) ++
      [⟨u, src, tgt, r₂, w₂, t₂⟩] = _
    rw [List.append_assoc]
    rfl
  · exact relOf_addEdge_self _ _ _ _
  · intro h
    exact uniquePairs_addEdge _ _ _ (uniquePairs_addEdge _ _ _ h)

/-- C4 amended-claim witness at a concrete state. -/
theorem multigraph_durable_mirror_last_witness :
    UniquePairs initialState.mirror ∧
    UniquePairs (addToGraph (addToGraph initialState 1 "a" "b" "r1" 1 0)
      1 "a" "b" "r2" 1 1).mirror :=
  have h0 : UniquePairs initialState.mirror := fun s t => by
    simp [initialState]
  ⟨h0, (multigraph_durable_mirror_last initialState 1 0 1 "a" "b" "r1" "r2"
    1 1).2.2 h0⟩

/-! ### C6 -/

theorem foldl_addToGraph_succs_ne (u now : Nat) (concept : String)
    {x : String} (hx : x ≠ mkNode u concept) :
    ∀ (l : List String) (st : MemoryState),
      (l.foldl (fun s r => addToGraph s u concept r "related_to" 1 now)
        st).mirror.succs x = st.mirror.succs x := by
  intro l
  induction l with
  | nil => intro st; rfl
  | cons r tl ih =>
    intro st
    rw [List.foldl_cons, ih]
    exact succs_addEdge_ne st.mirror _ _ hx

/-- C6: `store_semantic` creates only the forward `related_to` edges; if
the target concept did not already point back at the source, it still does
not afterwards. -/
theorem semantic_forward_only (embed : EmbedFn) (st : MemoryState)
    (u now : Nat) (concept : String) (L : List String) (st' : MemoryState)
    (hst : storeSemantic embed st u concept L now = some st') :
    st'.graphRows = st.graphRows ++
      L.map (fun x => ⟨u, concept, x, "related_to", 1, now⟩) ∧
    ∀ x ∈ L, x ≠ concept → concept ∉ getRelatedConcepts st u x →
      concept ∉ getRelatedConcepts st' u x := by
  unfold storeSemantic at hst
  cases hemb : embed concept with
  | none =>
    rw [show storeEntry embed st
        { user_id := u, content := concept, memory_type := "semantic",
          metadata := .sem L, timestamp := now, embedding := none } = none
      from by simp [storeEntry, hemb]] at hst
    exact absurd hst (by simp)
  | some emb =>
    rw [show storeEntry embed st
        { user_id := u, content := concept, memory_type := "semantic",
          metadata := .sem L, timestamp := now, embedding := none } = some
        { st with entries := st.entries ++
            [⟨u, concept, "semantic", .sem L, now, some emb⟩] }
      from by simp [storeEntry, hemb]] at hst
    simp only [Option.some.injEq] at hst
    subst hst
    constructor
    · rw [foldl_addToGraph_rows]
    · intro x hxL hxc hnot
      have hx : mkNode u x ≠ mkNode u concept :=
        fun h => hxc (mkNode_inj h).2
      have hsucc := foldl_addToGraph_succs_ne u now concept hx L
        { st with entries := st.entries ++
            [⟨u, concept, "semantic", .sem L, now, some emb⟩] }
      intro hmem
      unfold getRelatedConcepts at hmem hnot
      by_cases hnode : (L.foldl
          (fun s r => addToGraph s u concept r "related_to" 1 now)
          { st with entries := st.entries ++
              [⟨u, concept, "semantic", .sem L, now, some emb⟩]
          }).mirror.hasNode (mkNode u x) = true
      · rw [if_pos hnode] at hmem
        rw [hsucc] at hmem
        by_cases hnode0 : st.mirror.hasNode (mkNode u x) = true
        · rw [if_pos hnode0] at hnot
          exact hnot hmem
        · rw [hasNode_eq_false_succs (by simpa using hnode0)] at hmem
          simp at hmem
      · rw [if_neg hnode] at hmem
        simp at hmem

/-- C6 witness: after `store_semantic(1, "recursion", ["loops"])` the
concept `"loops"` does not point back at `"recursion"`. -/
theorem semantic_forward_only_witness :
    storeSemantic (fun _ => some [1]) initialState 1 "recursion" ["loops"] 3
      = some ⟨[⟨1, "recursion", "semantic", .sem ["loops"], 3, some [1]⟩],
          [⟨1, "recursion", "loops", "related_to", 1, 3⟩],
          [(mkNode 1 "recursion", mkNode 1 "loops", ⟨"related_to", 1⟩)]⟩ ∧
    "recursion" ∉ getRelatedConcepts
      ⟨[⟨1, "recursion", "semantic", .sem ["loops"], 3, some [1]⟩],
       [⟨1, "recursion", "loops", "related_to", 1, 3⟩],
       [(mkNode 1 "recursion", mkNode 1 "loops", ⟨"related_to", 1⟩)]⟩
      1 "loops" := by
  refine ⟨by decide, ?_⟩
  exact (semantic_forward_only (fun _ => some [1]) initialState 1 3
    "recursion" ["loops"] _ (by decide)).2 "loops" (by decide) (by decide)
    (by decide)

/-! ### C8 -/

/-- C8: a stored conversation is returned by a later recall with identical
content and metadata, and recall output is ordered newest first
(timestamps monotonically non-increasing). -/
theorem conversation_round_trip (embed : EmbedFn) (st : MemoryState)
    (u now limit : Nat) (msg reply : String) (tools : List String)
    (st' : MemoryState)
    (hst : storeConversation embed st u msg reply tools now = some st')
    (hlim : (st'.entries.filter fun e =>
        decide (e.user_id = u ∧ e.memory_type = "conversation")).length
      ≤ limit) :
    (∃ row ∈ recallConversation st' u limit,
        row.content = convContent msg reply ∧
        row.metadata = .conv msg reply tools ∧ row.timestamp = now) ∧
    (recallConversation st' u limit).Pairwise
      fun r₁ r₂ => r₂.timestamp ≤ r₁.timestamp := by
  haveI hTot : IsTotal MemoryEntry (fun a b => b.timestamp ≤ a.timestamp) :=
    ⟨fun a b => le_total _ _⟩
  haveI hTr : IsTrans MemoryEntry (fun a b => b.timestamp ≤ a.timestamp) :=
    ⟨fun _ _ _ h1 h2 => le_trans h2 h1⟩
  constructor
  · cases hemb : embed (convContent msg reply) with
    | none =>
      rw [show storeConversation embed st u msg reply tools now = none
        from by simp [storeConversation, storeEntry, hemb]] at hst
      exact absurd hst (by simp)
    | some emb =>
      rw [show storeConversation embed st u msg reply tools now = some
          { st with entries := st.entries ++
              [⟨u, convContent msg reply, "conversation",
                .conv msg reply tools, now, some emb⟩] }
        from by simp [storeConversation, storeEntry, hemb]] at hst
      simp only [Option.some.injEq] at hst
      subst hst
      refine ⟨⟨convContent msg reply, .conv msg reply tools, now⟩, ?_, rfl, rfl, rfl⟩
      unfold recallConversation
      have hmemE : (⟨u, convContent msg reply, "conversation",
          .conv msg reply tools, now, some emb⟩ : MemoryEntry) ∈
          ({ st with entries := st.entries ++
              [⟨u, convContent msg reply, "conversation",
                .conv msg reply tools, now, some emb⟩] } :
            MemoryState).entries.filter fun e =>
              decide (e.user_id = u ∧ e.memory_type = "conversation") := by
        rw [List.mem_filter]
        exact ⟨List.mem_append_right _ (by simp), by simp⟩
      have hsorted := (List.mem_insertionSort
        (fun a b : MemoryEntry => b.timestamp ≤ a.timestamp)).mpr hmemE
      have htake : ((({ st with entries := st.entries ++
          [⟨u, convContent msg reply, "conversation",
            .conv msg reply tools, now, some emb⟩] } :
          MemoryState).entries.filter fun e =>
            decide (e.user_id = u ∧ e.memory_type = "conversation")).insertionSort
          fun a b => b.timestamp ≤ a.timestamp).take limit =
          (({ st with entries := st.entries ++
          [⟨u, convContent msg reply, "conversation",
            .conv msg reply tools, now, some emb⟩] } :
          MemoryState).entries.filter fun e =>
            decide (e.user_id = u ∧ e.memory_type = "conversation")).insertionSort
          fun a b => b.timestamp ≤ a.timestamp := by
        apply List.take_of_length_le
        rw [List.length_insertionSort]
        exact hlim
      rw [htake]
      exact List.mem_map_of_mem _ hsorted
  · unfold recallConversation
    rw [List.pairwise_map]
    exact ((List.sorted_insertionSort
        (fun a b : MemoryEntry => b.timestamp ≤ a.timestamp) _).sublist
      (List.take_sublist _ _)).imp fun h => h

/-- C8 witness: one stored conversation is recalled intact. -/
theorem conversation_round_trip_witness :
    (∃ row ∈ recallConversation
        ⟨[⟨1, convContent "hi" "yo", "conversation", .conv "hi" "yo" ["t"],
          3, some [1]⟩], [], []⟩ 1 10,
      row.content = convContent "hi" "yo" ∧
      row.metadata = .conv "hi" "yo" ["t"] ∧ row.timestamp = 3) ∧
    (recallConversation
        ⟨[⟨1, convContent "hi" "yo", "conversation", .conv "hi" "yo" ["t"],
          3, some [1]⟩], [], []⟩ 1 10).Pairwise
      fun r₁ r₂ => r₂.timestamp ≤ r₁.timestamp :=
  conversation_round_trip (fun _ => some [1]) initialState 1 3 10 "hi" "yo"
    ["t"] _ (by simp [storeConversation, storeEntry, initialState]) (by decide)

/-! ### C2 -/

/-- C2: search returns exactly the user's entries with similarity strictly
above 1/2, stably sorted by similarity descending and truncated to the
limit; no returned row has similarity ≤ 1/2; with no qualifying entry the
result is the empty list, not an error; every qualifying entry is returned
when the limit suffices. The floating-point cosine kernel is abstracted as
the parameter `sim`, so this holds for every kernel. -/
theorem semantic_search_spec (embed : EmbedFn) (sim : Emb → Emb → ℚ)
    (st : MemoryState) (u limit : Nat) (query : String) (qe : Emb)
    (hq : embed query = some qe) :
    ∃ res, semanticSearch embed sim st u query limit = some res ∧
      res = (((st.entries.filter fun e => decide (e.user_id = u)).filterMap
          fun e =>
            if (1 : ℚ)/2 < sim qe (e.embedding.getD []) then
              some (⟨e.content, e.metadata, e.timestamp,
                sim qe (e.embedding.getD [])⟩ : SearchRow)
            else none).insertionSort
          fun r₁ r₂ => r₂.similarity ≤ r₁.similarity).take limit ∧
      (∀ r ∈ res, (1 : ℚ)/2 < r.similarity) ∧
      res.Pairwise (fun r₁ r₂ => r₂.similarity ≤ r₁.similarity) ∧
      res.length ≤ limit ∧
      ((∀ e ∈ st.entries, e.user_id = u →
          ¬((1 : ℚ)/2 < sim qe (e.embedding.getD []))) → res = []) ∧
      (∀ e ∈ st.entries, e.user_id = u →
        (1 : ℚ)/2 < sim qe (e.embedding.getD []) →
        ((st.entries.filter fun e => decide (e.user_id = u)).filterMap
            fun e =>
              if (1 : ℚ)/2 < sim qe (e.embedding.getD []) then
                some (⟨e.content, e.metadata, e.timestamp,
                  sim qe (e.embedding.getD [])⟩ : SearchRow)
              else none).length ≤ limit →
        (⟨e.content, e.metadata, e.timestamp,
          sim qe (e.embedding.getD [])⟩ : SearchRow) ∈ res) := by
  haveI hTot : IsTotal SearchRow (fun r₁ r₂ => r₂.similarity ≤ r₁.similarity) :=
    ⟨fun a b => le_total _ _⟩
  haveI hTr : IsTrans SearchRow (fun r₁ r₂ => r₂.similarity ≤ r₁.similarity) :=
    ⟨fun _ _ _ h1 h2 => le_trans h2 h1⟩
  refine ⟨_, by simp [semanticSearch, hq], rfl, ?_, ?_, ?_, ?_, ?_⟩
  · intro r hr
    have hr2 := (List.take_sublist limit _).mem hr
    rw [List.mem_insertionSort, List.mem_filterMap] at hr2
    obtain ⟨e, _, heq⟩ := hr2
    by_cases hc : (1 : ℚ)/2 < sim qe (e.embedding.getD [])
    · rw [if_pos hc] at heq
      simp only [Option.some.injEq] at heq
      rw [← heq]
      exact hc
    · rw [if_neg hc] at heq
      exact absurd heq (by simp)
  · exact ((List.sorted_insertionSort
        (fun r₁ r₂ : SearchRow => r₂.similarity ≤ r₁.similarity) _).sublist
      (List.take_sublist _ _)).imp fun h => h
  · rw [List.length_take]
    exact min_le_left _ _
  · intro hnone
    have hnil : ((st.entries.filter fun e => decide (e.user_id = u)).filterMap
        fun e =>
          if (1 : ℚ)/2 < sim qe (e.embedding.getD []) then
            some (⟨e.content, e.metadata, e.timestamp,
              sim qe (e.embedding.getD [])⟩ : SearchRow)
          else none) = [] := by
      rw [List.filterMap_eq_nil_iff]
      intro e he
      rw [List.mem_filter] at he
      rw [if_neg (hnone e he.1 (by simpa using he.2))]
    rw [hnil]
    simp [List.insertionSort]
  · intro e he hu hsim hlen
    have hmem : (⟨e.content, e.metadata, e.timestamp,
        sim qe (e.embedding.getD [])⟩ : SearchRow) ∈
        ((st.entries.filter fun e => decide (e.user_id = u)).filterMap
          fun e =>
            if (1 : ℚ)/2 < sim qe (e.embedding.getD []) then
              some (⟨e.content, e.metadata, e.timestamp,
                sim qe (e.embedding.getD [])⟩ : SearchRow)
            else none) := by
      rw [List.mem_filterMap]
      exact ⟨e, List.mem_filter.mpr ⟨he, by simpa using hu⟩, by rw [if_pos hsim]⟩
    have hsorted := (List.mem_insertionSort
      (fun r₁ r₂ : SearchRow => r₂.similarity ≤ r₁.similarity)).mpr hmem
    rw [List.take_of_length_le (by rw [List.length_insertionSort]; exact hlen)]
    exact hsorted

/-- C2 witness: one qualifying and one non-qualifying entry; the search
returns exactly the qualifying one. -/
theorem semantic_search_spec_witness :
    semanticSearch (fun _ => some [1])
      (fun _ e => if e = [2] then 1 else 0)
      ⟨[⟨1, "c", "conversation", .sem [], 0, some [2]⟩,
        ⟨1, "d", "conversation", .sem [], 1, some [3]⟩], [], []⟩
      1 "q" 5 = some [⟨"c", .sem [], 0, 1⟩] := by
  obtain ⟨res, h1, h2, -⟩ := semantic_search_spec (fun _ => some [1])
    (fun _ e => if e = [2] then 1 else 0)
    ⟨[⟨1, "c", "conversation", .sem [], 0, some [2]⟩,
      ⟨1, "d", "conversation", .sem [], 1, some [3]⟩], [], []⟩
    1 5 "q" [1] rfl
  rw [h1, h2]
  norm_num [List.filter_cons, List.filterMap_cons, List.insertionSort,
    List.orderedInsert, Option.getD]

/-! ### C7 helpers -/

theorem lookupDep_appendDep (c c' x : String) :
    ∀ d : List (String × List String),
      lookupDep (appendDep d c x) c' =
        if c' = c then lookupDep d c ++ [x] else lookupDep d c' := by
  intro d
  induction d with
  | nil =>
    by_cases h : c' = c
    · subst h
      simp [appendDep, lookupDep]
    · simp [appendDep, lookupDep, h, Ne.symm h]
  | cons kv rest ih =>
    obtain ⟨k, v⟩ := kv
    by_cases hk : k = c <;> by_cases h : c' = k
    · subst hk
      subst h
      simp [appendDep, lookupDep]
    · subst hk
      simp [appendDep, lookupDep, h, Ne.symm h]
    · subst h
      simp [appendDep, lookupDep, hk]
    · simp [appendDep, lookupDep, hk, h, Ne.symm h, ih]

theorem classify_notes_mono {m : Mirror} {uc c n x : String}
    {ctx : GraphContext} (h : x ∈ ctx.related_notes) :
    x ∈ (classifyNeighbor m uc c n ctx).related_notes := by
  simp only [classifyNeighbor]
  split_ifs <;> simp [h]

theorem classify_videos_mono {m : Mirror} {uc c n x : String}
    {ctx : GraphContext} (h : x ∈ ctx.related_videos) :
    x ∈ (classifyNeighbor m uc c n ctx).related_videos := by
  simp only [classifyNeighbor]
  split_ifs <;> simp [h]

theorem classify_deps_mono {m : Mirror} {uc c c₀ n x : String}
    {ctx : GraphContext} (h : x ∈ lookupDep ctx.concept_dependencies c₀) :
    x ∈ lookupDep (classifyNeighbor m uc c n ctx).concept_dependencies c₀ := by
  simp only [classifyNeighbor]
  split_ifs
  · exact h
  · exact h
  · rw [lookupDep_appendDep]
    by_cases hc : c₀ = c
    · rw [if_pos hc]
      exact List.mem_append_left _ (hc ▸ h)
    · rw [if_neg hc]
      exact h
  · exact h

theorem neighbor_fold_notes_mono (m : Mirror) (uc c x : String) :
    ∀ (l : List String) (ctx : GraphContext), x ∈ ctx.related_notes →
      x ∈ (l.foldl (fun cx n => classifyNeighbor m uc c n cx)
        ctx).related_notes := by
  intro l
  induction l with
  | nil => intro ctx h; exact h
  | cons a t ih =>
    intro ctx h
    rw [List.foldl_cons]
    exact ih _ (classify_notes_mono h)

theorem neighbor_fold_videos_mono (m : Mirror) (uc c x : String) :
    ∀ (l : List String) (ctx : GraphContext), x ∈ ctx.related_videos →
      x ∈ (l.foldl (fun cx n => classifyNeighbor m uc c n cx)
        ctx).related_videos := by
  intro l
  induction l with
  | nil => intro ctx h; exact h
  | cons a t ih =>
    intro ctx h
    rw [List.foldl_cons]
    exact ih _ (classify_videos_mono h)

theorem neighbor_fold_deps_mono (m : Mirror) (uc c c₀ x : String) :
    ∀ (l : List String) (ctx : GraphContext),
      x ∈ lookupDep ctx.concept_dependencies c₀ →
      x ∈ lookupDep (l.foldl (fun cx n => classifyNeighbor m uc c n cx)
        ctx).concept_dependencies c₀ := by
  intro l
  induction l with
  | nil => intro ctx h; exact h
  | cons a t ih =>
    intro ctx h
    rw [List.foldl_cons]
    exact ih _ (classify_deps_mono h)

theorem processConcept_notes_mono (m : Mirror) (u : Nat) (c x : String)
    (ctx : GraphContext) (h : x ∈ ctx.related_notes) :
    x ∈ (processConcept m u ctx c).related_notes := by
  simp only [processConcept]
  split_ifs
  · exact neighbor_fold_notes_mono _ _ _ _ _ _ h
  · exact h

theorem processConcept_videos_mono (m : Mirror) (u : Nat) (c x : String)
    (ctx : GraphContext) (h : x ∈ ctx.related_videos) :
    x ∈ (processConcept m u ctx c).related_videos := by
  simp only [processConcept]
  split_ifs
  · exact neighbor_fold_videos_mono _ _ _ _ _ _ h
  · exact h

theorem processConcept_deps_mono (m : Mirror) (u : Nat) (c c₀ x : String)
    (ctx : GraphContext) (h : x ∈ lookupDep ctx.concept_dependencies c₀) :
    x ∈ lookupDep (processConcept m u ctx c).concept_dependencies c₀ := by
  simp only [processConcept]
  split_ifs
  · exact neighbor_fold_deps_mono _ _ _ _ _ _ _ h
  · exact h

theorem concept_fold_notes_mono (m : Mirror) (u : Nat) (x : String) :
    ∀ (cl : List String) (ctx : GraphContext), x ∈ ctx.related_notes →
      x ∈ (cl.foldl (processConcept m u) ctx).related_notes := by
  intro cl
  induction cl with
  | nil => intro ctx h; exact h
  | cons a t ih =>
    intro ctx h
    rw [List.foldl_cons]
    exact ih _ (processConcept_notes_mono _ _ _ _ _ h)

theorem concept_fold_videos_mono (m : Mirror) (u : Nat) (x : String) :
    ∀ (cl : List String) (ctx : GraphContext), x ∈ ctx.related_videos →
      x ∈ (cl.foldl (processConcept m u) ctx).related_videos := by
  intro cl
  induction cl with
  | nil => intro ctx h; exact h
  | cons a t ih =>
    intro ctx h
    rw [List.foldl_cons]
    exact ih _ (processConcept_videos_mono _ _ _ _ _ h)

theorem concept_fold_deps_mono (m : Mirror) (u : Nat) (c₀ x : String) :
    ∀ (cl : List String) (ctx : GraphContext),
      x ∈ lookupDep ctx.concept_dependencies c₀ →
      x ∈ lookupDep (cl.foldl (processConcept m u) ctx).concept_dependencies c₀ := by
  intro cl
  induction cl with
  | nil => intro ctx h; exact h
  | cons a t ih =>
    intro ctx h
    rw [List.foldl_cons]
    exact ih _ (processConcept_deps_mono _ _ _ _ _ _ h)

theorem hasNode_of_mem_succs {m : Mirror} {x n : String}
    (h : n ∈ m.succs x) : m.hasNode x = true := by
  obtain ⟨a, ha⟩ := (mem_succs_iff m x n).mp h
  exact hasNode_of_mem_src ha

theorem neighbor_fold_classifies (m : Mirror) (uc c : String) :
    ∀ (l : List String) (ctx : GraphContext) (n : String), n ∈ l →
      ((containsStr (m.relOf uc n) "note"
          || containsStr (lowerStr (stripUser n)) "day") = true →
        stripUser n ∈ (l.foldl (fun cx nb => classifyNeighbor m uc c nb cx)
          ctx).related_notes) ∧
      ((containsStr (m.relOf uc n) "note"
          || containsStr (lowerStr (stripUser n)) "day") = false →
        (containsStr (m.relOf uc n) "video"
          || containsStr (lowerStr (stripUser n)) "youtube") = true →
        stripUser n ∈ (l.foldl (fun cx nb => classifyNeighbor m uc c nb cx)
          ctx).related_videos) ∧
      ((containsStr (m.relOf uc n) "note"
          || containsStr (lowerStr (stripUser n)) "day") = false →
        (containsStr (m.relOf uc n) "video"
          || containsStr (lowerStr (stripUser n)) "youtube") = false →
        containsStr (m.relOf uc n) "depends" = true →
        stripUser n ∈ lookupDep (l.foldl
          (fun cx nb => classifyNeighbor m uc c nb cx)
          ctx).concept_dependencies c) := by
  intro l
  induction l with
  | nil =>
    intro ctx n hn
    simp at hn
  | cons a t ih =>
    intro ctx n hn
    rcases List.mem_cons.mp hn with heq | hnt
    · subst heq
      refine ⟨?_, ?_, ?_⟩
      · intro hA
        rw [List.foldl_cons]
        apply neighbor_fold_notes_mono
        simp only [classifyNeighbor]
        rw [if_pos hA]
        simp
      · intro hA hB
        rw [List.foldl_cons]
        apply neighbor_fold_videos_mono
        simp only [classifyNeighbor]
        rw [if_neg (by simp [hA]), if_pos hB]
        simp
      · intro hA hB hC
        rw [List.foldl_cons]
        apply neighbor_fold_deps_mono
        simp only [classifyNeighbor]
        rw [if_neg (by simp [hA]), if_neg (by simp [hB]), if_pos hC]
        rw [lookupDep_appendDep, if_pos rfl]
        simp
    · rw [List.foldl_cons]
      exact ih (classifyNeighbor m uc c a ctx) n hnt

theorem concept_fold_classifies (m : Mirror) (u : Nat) :
    ∀ (cl : List String) (ctx : GraphContext) (concept n : String),
      concept ∈ cl → n ∈ m.succs (mkNode u concept) →
      ((containsStr (m.relOf (mkNode u concept) n) "note"
          || containsStr (lowerStr (stripUser n)) "day") = true →
        stripUser n ∈ (cl.foldl (processConcept m u) ctx).related_notes) ∧
      ((containsStr (m.relOf (mkNode u concept) n) "note"
          || containsStr (lowerStr (stripUser n)) "day") = false →
        (containsStr (m.relOf (mkNode u concept) n) "video"
          || containsStr (lowerStr (stripUser n)) "youtube") = true →
        stripUser n ∈ (cl.foldl (processConcept m u) ctx).related_videos) ∧
      ((containsStr (m.relOf (mkNode u concept) n) "note"
          || containsStr (lowerStr (stripUser n)) "day") = false →
        (containsStr (m.relOf (mkNode u concept) n) "video"
          || containsStr (lowerStr (stripUser n)) "youtube") = false →
        containsStr (m.relOf (mkNode u concept) n) "depends" = true →
        stripUser n ∈ lookupDep
          (cl.foldl (processConcept m u) ctx).concept_dependencies concept) := by
  intro cl
  induction cl with
  | nil =>
    intro ctx concept n hc hn
    simp at hc
  | cons c₀ t ih =>
    intro ctx concept n hc hn
    rcases List.mem_cons.mp hc with heq | hct
    · subst heq
      have hstep := neighbor_fold_classifies m (mkNode u concept) concept
        (m.succs (mkNode u concept)) ctx n hn
      have hproc : processConcept m u ctx concept =
          (m.succs (mkNode u concept)).foldl
            (fun cx nb => classifyNeighbor m (mkNode u concept) concept nb cx)
            ctx := by
        simp only [processConcept]
        rw [if_pos (hasNode_of_mem_succs hn)]
      refine ⟨?_, ?_, ?_⟩
      · intro hA
        rw [List.foldl_cons]
        apply concept_fold_notes_mono
        rw [hproc]
        exact hstep.1 hA
      · intro hA hB
        rw [List.foldl_cons]
        apply concept_fold_videos_mono
        rw [hproc]
        exact hstep.2.1 hA hB
      · intro hA hB hC
        rw [List.foldl_cons]
        apply concept_fold_deps_mono
        rw [hproc]
        exact hstep.2.2 hA hB hC
    · rw [List.foldl_cons]
      exact ih (processConcept m u ctx c₀) concept n hct hn

theorem concept_fold_no_node (m : Mirror) (u : Nat) :
    ∀ cl : List String, (∀ c ∈ cl, m.hasNode (mkNode u c) = false) →
      ∀ ctx, cl.foldl (processConcept m u) ctx = ctx := by
  intro cl
  induction cl with
  | nil => intro _ ctx; rfl
  | cons c₀ t ih =>
    intro h ctx
    rw [List.foldl_cons]
    have hstep : processConcept m u ctx c₀ = ctx := by
      simp only [processConcept]
      rw [if_neg (by simp [h c₀ (by simp)])]
    rw [hstep]
    exact ih (fun c hc => h c (by simp [hc])) ctx

/-- C7 as stated is false at a concrete input: concept `recursion` has the
single neighbor `day_2` reached via relationship `video_resource`, yet the
resolver places it in `related_notes` (the `'day' in neighbor` rule fires
first), and `related_videos` stays empty. -/
theorem graph_context_classification_counterexample :
    (addToGraph initialState 1 "recursion" "day_2" "video_resource"
        1 0).mirror.relOf (mkNode 1 "recursion") (mkNode 1 "day_2")
      = "video_resource" ∧
    getGraphContext
      (addToGraph initialState 1 "recursion" "day_2" "video_resource" 1 0)
      1 "recursion" = ⟨["day_2"], [], [], []⟩ := by
  decide

/-- C7 amended: the three classification rules are evaluated in source
order and also inspect the neighbor's label. A neighbor whose relationship
contains "note" (in particular `note_resource`) or whose lower-cased label
contains "day" always lands in `related_notes`; otherwise, if the
relationship contains "video" (in particular `video_resource`) or the
label contains "youtube", it lands in `related_videos`; otherwise, if the
relationship contains "depends", it lands in
`concept_dependencies[concept]`. A concept with no matching node
contributes nothing, and an entirely unmatched query yields the empty
context, not an error. -/
theorem graph_context_classification (st : MemoryState) (u : Nat)
    (query : String) :
    (∀ concept n, concept ∈ extractConcepts query →
      n ∈ st.mirror.succs (mkNode u concept) →
      ((containsStr (st.mirror.relOf (mkNode u concept) n) "note"
          || containsStr (lowerStr (stripUser n)) "day") = true →
        stripUser n ∈ (getGraphContext st u query).related_notes) ∧
      ((containsStr (st.mirror.relOf (mkNode u concept) n) "note"
          || containsStr (lowerStr (stripUser n)) "day") = false →
        (containsStr (st.mirror.relOf (mkNode u concept) n) "video"
          || containsStr (lowerStr (stripUser n)) "youtube") = true →
        stripUser n ∈ (getGraphContext st u query).related_videos) ∧
      ((containsStr (st.mirror.relOf (mkNode u concept) n) "note"
          || containsStr (lowerStr (stripUser n)) "day") = false →
        (containsStr (st.mirror.relOf (mkNode u concept) n) "video"
          || containsStr (lowerStr (stripUser n)) "youtube") = false →
        containsStr (st.mirror.relOf (mkNode u concept) n) "depends" = true →
        stripUser n ∈ lookupDep
          (getGraphContext st u query).concept_dependencies concept)) ∧
    ((∀ c ∈ extractConcepts query,
        st.mirror.hasNode (mkNode u c) = false) →
      getGraphContext st u query = emptyContext) := by
  constructor
  · intro concept n hc hn
    exact concept_fold_classifies st.mirror u (extractConcepts query)
      emptyContext concept n hc hn
  · intro h
    exact concept_fold_no_node st.mirror u (extractConcepts query) h
      emptyContext

/-- C7 amended-claim witness: a `note_resource` neighbor of an extracted
concept lands in `related_notes`, and a query whose concepts have no node
yields the empty context. -/
theorem graph_context_classification_witness :
    stripUser (mkNode 1 "notes1") ∈ (getGraphContext
      (addToGraph initialState 1 "recursion" "notes1" "note_resource" 1 0)
      1 "recursion").related_notes ∧
    getGraphContext initialState 1 "recursion" = emptyContext := by
  refine ⟨?_, ?_⟩
  · exact ((graph_context_classification
      (addToGraph initialState 1 "recursion" "notes1" "note_resource" 1 0)
      1 "recursion").1 "recursion" (mkNode 1 "notes1")
      (by decide) (by decide)).1 (by decide)
  · exact (graph_context_classification initialState 1 "recursion").2
      (by decide)

/-! ### C9 helpers -/

/-- `m'` is indistinguishable from `m` through every graph read issued on
behalf of user `u`: node membership, successor lists and edge
relationships of the user's nodes all coincide. -/
def MirrorAgrees (u : Nat) (m m' : Mirror) : Prop :=
  ∀ c : String,
    m'.hasNode (mkNode u c) = m.hasNode (mkNode u c) ∧
    m'.succs (mkNode u c) = m.succs (mkNode u c) ∧
    ∀ n, m'.relOf (mkNode u c) n = m.relOf (mkNode u c) n

theorem mirrorAgrees_refl (u : Nat) (m : Mirror) : MirrorAgrees u m m :=
  fun _ => ⟨rfl, rfl, fun _ => rfl⟩

theorem mirrorAgrees_trans {u : Nat} {m₁ m₂ m₃ : Mirror}
    (h₁ : MirrorAgrees u m₁ m₂) (h₂ : MirrorAgrees u m₂ m₃) :
    MirrorAgrees u m₁ m₃ := by
  intro c
  obtain ⟨ha, hb, hc⟩ := h₁ c
  obtain ⟨ha', hb', hc'⟩ := h₂ c
  exact ⟨ha'.trans ha, hb'.trans hb, fun n => (hc' n).trans (hc n)⟩

/-- A single edge insert by another user is invisible to this user's
reads. -/
theorem addEdge_agrees {u₁ u₂ : Nat} (hne : u₂ ≠ u₁) (m : Mirror)
    (src tgt : String) (a : EdgeAttrs) :
    MirrorAgrees u₁ m (m.addEdge (mkNode u₂ src) (mkNode u₂ tgt) a) := by
  intro c
  have hs : mkNode u₁ c ≠ mkNode u₂ src := fun h => hne (mkNode_inj h).1.symm
  have ht : mkNode u₁ c ≠ mkNode u₂ tgt := fun h => hne (mkNode_inj h).1.symm
  refine ⟨hasNode_addEdge_ne m a hs ht, succs_addEdge_ne m _ a hs, fun n => ?_⟩
  exact relOf_addEdge_ne m a fun h => hs h.1

theorem addToGraph_agrees {u₁ u₂ : Nat} (hne : u₂ ≠ u₁) (st : MemoryState)
    (src tgt rel : String) (w : ℚ) (now : Nat) :
    MirrorAgrees u₁ st.mirror (addToGraph st u₂ src tgt rel w now).mirror :=
  addEdge_agrees hne st.mirror src tgt ⟨rel, w⟩

theorem linkConcepts_agrees {u₁ u₂ : Nat} (hne : u₂ ≠ u₁) (st : MemoryState)
    (src tgt rel : String) (now : Nat) :
    MirrorAgrees u₁ st.mirror (linkConcepts st u₂ src tgt rel now).mirror :=
  mirrorAgrees_trans (addToGraph_agrees hne st src tgt rel 1 now)
    (addToGraph_agrees hne (addToGraph st u₂ src tgt rel 1 now)
      tgt src ("reverse_" ++ rel) 1 now)

theorem foldl_agrees {u₁ : Nat} {f : MemoryState → String → MemoryState}
    (hf : ∀ s r, MirrorAgrees u₁ s.mirror (f s r).mirror) :
    ∀ (l : List String) (s : MemoryState),
      MirrorAgrees u₁ s.mirror (l.foldl f s).mirror := by
  intro l
  induction l with
  | nil => intro s; exact mirrorAgrees_refl _ _
  | cons r tl ih =>
    intro s
    rw [List.foldl_cons]
    exact mirrorAgrees_trans (hf s r) (ih (f s r))

/-- Any single graph write by another user is invisible to this user's
reads. -/
theorem applyWrite_agrees {u₁ u₂ : Nat} (hne : u₂ ≠ u₁) (st : MemoryState)
    (w : GraphWrite) :
    MirrorAgrees u₁ st.mirror (applyWrite st (u₂, w)).mirror := by
  cases w with
  | edge src tgt rel wt now => exact addToGraph_agrees hne st src tgt rel wt now
  | link src tgt rel now => exact linkConcepts_agrees hne st src tgt rel now
  | semantic c rel emb now =>
    show MirrorAgrees u₁ st.mirror
      ((storeSemantic (fun _ => some emb) st u₂ c rel now).getD st).mirror
    have hsem : storeSemantic (fun _ => some emb) st u₂ c rel now = some
        (rel.foldl (fun s r => addToGraph s u₂ c r "related_to" 1 now)
          { st with entries := st.entries ++
              [⟨u₂, c, "semantic", .sem rel, now, some emb⟩] }) := by
      simp [storeSemantic, storeEntry]
    rw [hsem]
    exact foldl_agrees (fun s r => addToGraph_agrees hne s c r "related_to" 1 now)
      rel _
  | learningPath d c rs now =>
    show MirrorAgrees u₁ st.mirror
      (createLearningPathGraph st u₂ d c rs now).mirror
    unfold createLearningPathGraph
    refine mirrorAgrees_trans
      (linkConcepts_agrees hne st ⟨'d' :: 'a' :: 'y' :: '_' :: natToStrAux d⟩
        c "teaches" now) ?_
    apply foldl_agrees
    intro s r
    by_cases h1 : (containsStr r "youtube" || containsStr r "video") = true
    · rw [show (if containsStr r "youtube" || containsStr r "video" then
          linkConcepts s u₂ c r "video_resource" now
        else if containsStr r "notes" || containsStr r "drive" then
          linkConcepts s u₂ c r "note_resource" now
        else s) = linkConcepts s u₂ c r "video_resource" now
        from if_pos h1]
      exact linkConcepts_agrees hne s c r "video_resource" now
    · rw [show (if containsStr r "youtube" || containsStr r "video" then
          linkConcepts s u₂ c r "video_resource" now
        else if containsStr r "notes" || containsStr r "drive" then
          linkConcepts s u₂ c r "note_resource" now
        else s) = (if containsStr r "notes" || containsStr r "drive" then
          linkConcepts s u₂ c r "note_resource" now
        else s) from if_neg h1]
      by_cases h2 : (containsStr r "notes" || containsStr r "drive") = true
      · rw [if_pos h2]
        exact linkConcepts_agrees hne s c r "note_resource" now
      · rw [if_neg h2]
        exact mirrorAgrees_refl _ _

theorem applyWrites_agrees {u₁ : Nat} :
    ∀ (ws : List (Nat × GraphWrite)) (st : MemoryState),
      (∀ w ∈ ws, w.1 ≠ u₁) →
      MirrorAgrees u₁ st.mirror (applyWrites ws st).mirror := by
  intro ws
  induction ws with
  | nil => intro st _; exact mirrorAgrees_refl _ _
  | cons w tl ih =>
    intro st h
    obtain ⟨uw, gw⟩ := w
    show MirrorAgrees u₁ st.mirror
      (applyWrites tl (applyWrite st (uw, gw))).mirror
    exact mirrorAgrees_trans
      (applyWrite_agrees (h (uw, gw) (by simp)) st gw)
      (ih (applyWrite st (uw, gw)) fun w hw => h w (by simp [hw]))

/-- User-scoped reads see only the user's part of the mirror. -/
theorem getRelatedConcepts_agrees {u : Nat} {st st' : MemoryState}
    (h : MirrorAgrees u st.mirror st'.mirror) (c : String) :
    getRelatedConcepts st' u c = getRelatedConcepts st u c := by
  obtain ⟨ha, hb, -⟩ := h c
  simp only [getRelatedConcepts]
  rw [ha, hb]

theorem classifyNeighbor_agrees {u : Nat} {m m' : Mirror}
    (h : MirrorAgrees u m m') (c concept n : String) (ctx : GraphContext) :
    classifyNeighbor m' (mkNode u c) concept n ctx
      = classifyNeighbor m (mkNode u c) concept n ctx := by
  simp only [classifyNeighbor]
  rw [(h c).2.2 n]

theorem processConcept_agrees {u : Nat} {m m' : Mirror}
    (h : MirrorAgrees u m m') (c : String) (ctx : GraphContext) :
    processConcept m' u ctx c = processConcept m u ctx c := by
  simp only [processConcept]
  rw [(h c).1, (h c).2.1]
  by_cases hn : m.hasNode (mkNode u c) = true
  · rw [if_pos hn, if_pos hn]
    have : ∀ (l : List String) (cx : GraphContext),
        l.foldl (fun cx n => classifyNeighbor m' (mkNode u c) c n cx) cx
          = l.foldl (fun cx n => classifyNeighbor m (mkNode u c) c n cx) cx := by
      intro l
      induction l with
      | nil => intro cx; rfl
      | cons a t ih =>
        intro cx
        rw [List.foldl_cons, List.foldl_cons, classifyNeighbor_agrees h c c a cx]
        exact ih _
    exact this _ _
  · rw [if_neg hn, if_neg hn]

theorem getGraphContext_agrees {u : Nat} {st st' : MemoryState}
    (h : MirrorAgrees u st.mirror st'.mirror) (query : String) :
    getGraphContext st' u query = getGraphContext st u query := by
  simp only [getGraphContext]
  have : ∀ (cl : List String) (ctx : GraphContext),
      cl.foldl (processConcept st'.mirror u) ctx
        = cl.foldl (processConcept st.mirror u) ctx := by
    intro cl
    induction cl with
    | nil => intro ctx; rfl
    | cons c t ih =>
      intro ctx
      rw [List.foldl_cons, List.foldl_cons, processConcept_agrees h c ctx]
      exact ih _
  exact this _ _

/-- Every mirror edge joins two nodes of one and the same user. -/
def SameUserEdges (m : Mirror) : Prop :=
  ∀ e ∈ m, ∃ (v : Nat) (a b : String), e.1 = mkNode v a ∧ e.2.1 = mkNode v b

theorem sameUserEdges_addEdge {m : Mirror} (v : Nat) (src tgt : String)
    (a : EdgeAttrs) (h : SameUserEdges m) :
    SameUserEdges (m.addEdge (mkNode v src) (mkNode v tgt) a) := by
  unfold Mirror.addEdge
  by_cases hp : m.hasPair (mkNode v src) (mkNode v tgt) = true
  · rw [if_pos hp]
    intro e he
    rw [List.mem_map] at he
    obtain ⟨e₀, he₀, heq⟩ := he
    by_cases hm : (e₀.1 = mkNode v src && e₀.2.1 = mkNode v tgt) = true
    · rw [← heq]
      unfold updEdge
      rw [if_pos hm]
      exact ⟨v, src, tgt, rfl, rfl⟩
    · rw [← heq]
      unfold updEdge
      rw [if_neg (by simpa using hm)]
      exact h e₀ he₀
  · rw [if_neg hp]
    intro e he
    rcases List.mem_append.mp he with h1 | h1
    · exact h e h1
    · simp only [List.mem_singleton] at h1
      subst h1
      exact ⟨v, src, tgt, rfl, rfl⟩

theorem sameUserEdges_addToGraph {st : MemoryState} (v : Nat)
    (src tgt rel : String) (w : ℚ) (now : Nat) (h : SameUserEdges st.mirror) :
    SameUserEdges (addToGraph st v src tgt rel w now).mirror :=
  sameUserEdges_addEdge v src tgt ⟨rel, w⟩ h

theorem sameUserEdges_applyWrite {st : MemoryState} (uw : Nat)
    (w : GraphWrite) (h : SameUserEdges st.mirror) :
    SameUserEdges (applyWrite st (uw, w)).mirror := by
  cases w with
  | edge src tgt rel wt now => exact sameUserEdges_addToGraph uw src tgt rel wt now h
  | link src tgt rel now =>
    exact sameUserEdges_addToGraph uw tgt src _ 1 now
      (sameUserEdges_addToGraph uw src tgt rel 1 now h)
  | semantic c rel emb now =>
    show SameUserEdges
      ((storeSemantic (fun _ => some emb) st uw c rel now).getD st).mirror
    have hsem : storeSemantic (fun _ => some emb) st uw c rel now = some
        (rel.foldl (fun s r => addToGraph s uw c r "related_to" 1 now)
          { st with entries := st.entries ++
              [⟨uw, c, "semantic", .sem rel, now, some emb⟩] }) := by
      simp [storeSemantic, storeEntry]
    rw [hsem]
    show SameUserEdges
      (rel.foldl (fun s r => addToGraph s uw c r "related_to" 1 now)
        { st with entries := st.entries ++
            [⟨uw, c, "semantic", .sem rel, now, some emb⟩] }).mirror
    have : ∀ (l : List String) (s : MemoryState), SameUserEdges s.mirror →
        SameUserEdges (l.foldl
          (fun s r => addToGraph s uw c r "related_to" 1 now) s).mirror := by
      intro l
      induction l with
      | nil => intro s hs; exact hs
      | cons r t ih =>
        intro s hs
        rw [List.foldl_cons]
        exact ih _ (sameUserEdges_addToGraph uw c r "related_to" 1 now hs)
    exact this _ _ h
  | learningPath d c rs now =>
    show SameUserEdges (createLearningPathGraph st uw d c rs now).mirror
    unfold createLearningPathGraph
    have hstep : ∀ (l : List String) (s : MemoryState), SameUserEdges s.mirror →
        SameUserEdges (l.foldl (fun s r =>
          if containsStr r "youtube" || containsStr r "video" then
            linkConcepts s uw c r "video_resource" now
          else if containsStr r "notes" || containsStr r "drive" then
            linkConcepts s uw c r "note_resource" now
          else s) s).mirror := by
      intro l
      induction l with
      | nil => intro s hs; exact hs
      | cons r t ih =>
        intro s hs
        rw [List.foldl_cons]
        apply ih
        by_cases h1 : (containsStr r "youtube" || containsStr r "video") = true
        · rw [if_pos h1]
          exact sameUserEdges_addToGraph uw r c _ 1 now
            (sameUserEdges_addToGraph uw c r "video_resource" 1 now hs)
        · rw [if_neg h1]
          by_cases h2 : (containsStr r "notes" || containsStr r "drive") = true
          · rw [if_pos h2]
            exact sameUserEdges_addToGraph uw r c _ 1 now
              (sameUserEdges_addToGraph uw c r "note_resource" 1 now hs)
          · rw [if_neg h2]
            exact hs
    exact hstep rs _ (sameUserEdges_addToGraph uw c _ _ 1 now
      (sameUserEdges_addToGraph uw _ c "teaches" 1 now h))

/-! ### C9 -/

/-- C9: any sequence of graph writes issued by users other than `u₁`
leaves `u₁`'s related-concept reads and graph-context resolution exactly
unchanged, and the invariant that every mirror edge joins two nodes of one
single user is preserved by every write sequence (so no edge ever connects
nodes of different users). -/
theorem graph_write_isolation (ws : List (Nat × GraphWrite))
    (st : MemoryState) (u₁ : Nat) (concept query : String)
    (h : ∀ w ∈ ws, w.1 ≠ u₁) :
    getRelatedConcepts (applyWrites ws st) u₁ concept
      = getRelatedConcepts st u₁ concept ∧
    getGraphContext (applyWrites ws st) u₁ query
      = getGraphContext st u₁ query ∧
    (SameUserEdges st.mirror → SameUserEdges (applyWrites ws st).mirror) := by
  have hag := applyWrites_agrees ws st h
  refine ⟨getRelatedConcepts_agrees hag concept,
    getGraphContext_agrees hag query, ?_⟩
  intro hsu
  clear hag h
  induction ws generalizing st with
  | nil => exact hsu
  | cons w tl ih =>
    obtain ⟨uw, gw⟩ := w
    show SameUserEdges (applyWrites tl (applyWrite st (uw, gw))).mirror
    exact ih _ (sameUserEdges_applyWrite uw gw hsu)

/-- C9 witness: writes by user 2 on the same concept label leave user 1's
view unchanged, and the same-user-edge invariant survives. -/
theorem graph_write_isolation_witness :
    (∀ w ∈ [((2 : Nat), GraphWrite.link "python" "oop" "related_to" 4),
        ((2 : Nat), GraphWrite.edge "python" "ml" "related_to" 1 5)], w.1 ≠ 1) ∧
    getRelatedConcepts
      (applyWrites [((2 : Nat), GraphWrite.link "python" "oop" "related_to" 4),
        ((2 : Nat), GraphWrite.edge "python" "ml" "related_to" 1 5)]
        (addToGraph initialState 1 "python" "loops" "related_to" 1 0))
      1 "python"
      = getRelatedConcepts
        (addToGraph initialState 1 "python" "loops" "related_to" 1 0)
        1 "python" ∧
    SameUserEdges (applyWrites
      [((2 : Nat), GraphWrite.link "python" "oop" "related_to" 4),
        ((2 : Nat), GraphWrite.edge "python" "ml" "related_to" 1 5)]
      (addToGraph initialState 1 "python" "loops" "related_to" 1 0)).mirror := by
  have hsu : SameUserEdges
      (addToGraph initialState 1 "python" "loops" "related_to" 1 0).mirror := by
    intro e he
    have hm : (addToGraph initialState 1 "python" "loops" "related_to"
        1 0).mirror = [(mkNode 1 "python", mkNode 1 "loops",
          ⟨"related_to", 1⟩)] := by decide
    rw [hm] at he
    simp only [List.mem_singleton] at he
    subst he
    exact ⟨1, "python", "loops", rfl, rfl⟩
  have h := graph_write_isolation
    [((2 : Nat), GraphWrite.link "python" "oop" "related_to" 4),
      ((2 : Nat), GraphWrite.edge "python" "ml" "related_to" 1 5)]
    (addToGraph initialState 1 "python" "loops" "related_to" 1 0)
    1 "python" "python" (by decide)
  exact ⟨by decide, h.1, h.2.2 hsu⟩

end AgentMemory
